import Mathlib

/-!
Verification of the directional shortest-path search of `src/day16/main.py`
(Advent of Code 2024, day 16) against its natural-language specification.

The Python program is embedded shallowly:
* `Cell`, `Pos`, `Dir` mirror the `Cell`, `Position` and `Direction` types
  (a `Position` is the tuple `(x, y)`; Python integers are `Int`);
* `pyIdx` models Python list indexing, including negative-index wraparound
  and `IndexError` (`none`);
* `min_cost_to_end` and `count_best_path_tiles` are modelled as fuel-driven
  iterations of explicit step functions (`minStep`, `cbStep`) over search
  configurations; the priority queue is a list popped at the minimal
  (cost, tie-break counter) pair, exactly the order of Python's `heapq`
  on the pushed tuples (counters are pairwise distinct);
* exceptions are `Except PyErr`; running out of fuel is the distinguished
  value `PyErr.fuelOut` (the Python loops have no fuel; every theorem about
  a concrete run uses a fuel large enough that the run finishes, and the
  universally quantified theorems hold for every fuel or compute a bound).

The specification's notion of a legal move sequence is `runMoves`
(turn left / go straight / turn right, each followed by one step onto an
in-bounds non-wall cell, costed `move_cost` straight and
`move_cost + turn_cost` after a turn).
-/

namespace Day16

/-- Cell kinds of the maze, from the `Cell` enum of the source. -/
inductive Cell
  | cstart
  | cend
  | cempty
  | cwall
deriving DecidableEq, Repr

/-- A position `(x, y)` in the maze, as the Python `Position` named tuple. -/
abbrev Pos := Int × Int

/-- Movement directions, from the `Direction` enum of the source. -/
inductive Dir
  | north
  | east
  | south
  | west
deriving DecidableEq, Repr

/-- The `(dx, dy)` value of a direction. -/
def Dir.delta : Dir → Int × Int
  | .north => (0, -1)
  | .east => (1, 0)
  | .south => (0, 1)
  | .west => (-1, 0)

/-- `Direction.advance`: move a position one step in this direction. -/
def Dir.advance (d : Dir) (p : Pos) : Pos :=
  (p.1 + d.delta.1, p.2 + d.delta.2)

/-- `Direction.turn_clockwise`. -/
def Dir.turn_clockwise : Dir → Dir
  | .north => .east
  | .east => .south
  | .south => .west
  | .west => .north

/-- `Direction.turn_counter_clockwise`. -/
def Dir.turn_counter_clockwise : Dir → Dir
  | .north => .west
  | .east => .north
  | .south => .east
  | .west => .south

/-- A maze is a list of rows of cells (`Maze = list[list[Cell]]`). -/
abbrev Maze := List (List Cell)

/-- Python exceptions raised by the embedded code, plus `fuelOut` marking
an unfinished fuel-bounded iteration. -/
inductive PyErr
  | valueError (msg : String)
  | indexError
  | keyError
  | fuelOut
deriving DecidableEq, Repr

/-- Python list indexing `xs[i]`: non-negative indices in range, negative
indices wrap once from the end, anything else raises `IndexError` (`none`). -/
def pyIdx {α : Type} (xs : List α) (i : Int) : Option α :=
  if 0 ≤ i then
    if i < (xs.length : Int) then xs.get? i.toNat else none
  else if 0 ≤ i + (xs.length : Int) then xs.get? (i + (xs.length : Int)).toNat
  else none

/-- The Python expression `maze[p.y][p.x]`. -/
def cellAtPy (maze : Maze) (p : Pos) : Option Cell :=
  (pyIdx maze p.2).bind fun row => pyIdx row p.1

/-- `interpret_char_as_cell`: map a character to a cell, raising
`ValueError` on anything but `S`, `E`, `.`, `#`. -/
def interpret_char_as_cell (c : Char) : Except PyErr Cell :=
  if c = 'S' then .ok Cell.cstart
  else if c = 'E' then .ok Cell.cend
  else if c = '.' then .ok Cell.cempty
  else if c = '#' then .ok Cell.cwall
  else .error (.valueError ("Unknown cell character: " ++ String.singleton c))

/-- One row of `read_maze`: the list comprehension
`[interpret_char_as_cell(char) for char in line]`. -/
def read_row : List Char → Except PyErr (List Cell)
  | [] => .ok []
  | c :: cs =>
    match interpret_char_as_cell c with
    | .error e => .error e
    | .ok cell =>
      match read_row cs with
      | .error e => .error e
      | .ok cells => .ok (cell :: cells)

/-- `read_maze` on the already-split lines of the input file: interpret
every character of every row; no shape validation of any kind. -/
def read_maze : List (List Char) → Except PyErr Maze
  | [] => .ok []
  | row :: rest =>
    match read_row row with
    | .error e => .error e
    | .ok cells =>
      match read_maze rest with
      | .error e => .error e
      | .ok maze => .ok (cells :: maze)

/-- `find_start_position`: the fixed position `(1, len(maze) - 2)`;
the grid's cells are never examined. -/
def find_start_position (maze : Maze) : Pos :=
  (1, (maze.length : Int) - 2)

/-- `find_end_position`: the fixed position `(len(maze[0]) - 2, 1)`;
`maze[0]` raises `IndexError` on an empty maze. -/
def find_end_position (maze : Maze) : Except PyErr Pos :=
  match maze with
  | [] => .error .indexError
  | r0 :: _ => .ok ((r0.length : Int) - 2, 1)

/-- `is_within_bounds`: `0 <= x < len(maze[0])` and `0 <= y < len(maze)`. -/
def is_within_bounds (maze : Maze) (p : Pos) : Bool :=
  decide (0 ≤ p.1) && decide (p.1 < ((maze.headD []).length : Int)) &&
  decide (0 ≤ p.2) && decide (p.2 < (maze.length : Int))

/-- A frontier entry of `min_cost_to_end`: the heap tuple
`(cost, counter, position, direction)`. -/
structure MEntry where
  cost : Nat
  k : Nat
  pos : Pos
  dir : Dir
deriving DecidableEq, Repr

/-- Heap order on entries: by cost, ties by insertion counter. The
counters of all pushed entries are pairwise distinct, so the comparison
never reaches the position and direction components of the Python tuple. -/
def entryLE (a b : MEntry) : Bool :=
  a.cost < b.cost || (a.cost == b.cost && a.k ≤ b.k)

/-- Index of the first minimal element of a list under `le`. -/
def minIdx {α : Type} (le : α → α → Bool) : List α → Option Nat
  | [] => none
  | x :: xs =>
    match minIdx le xs with
    | none => some 0
    | some j =>
      match xs.get? j with
      | none => some 0
      | some y => if le x y then some 0 else some (j + 1)

/-- Remove the element at an index. -/
def removeAt {α : Type} : List α → Nat → List α
  | [], _ => []
  | _ :: xs, 0 => xs
  | x :: xs, n + 1 => x :: removeAt xs n

/-- Pop the minimal element (`heapq.heappop`). -/
def popMin {α : Type} (le : α → α → Bool) (q : List α) : Option (α × List α) :=
  match minIdx le q with
  | none => none
  | some i =>
    match q.get? i with
    | none => none
    | some x => some (x, removeAt q i)

/-- The loop state of `min_cost_to_end`: frontier, visited positions, and
the next value of the tie-break counter. -/
structure MCfg where
  queue : List MEntry
  visited : List Pos
  cnt : Nat
deriving Repr

/-- Result of one iteration of the `min_cost_to_end` loop. -/
inductive MRes
  | more (c : MCfg)
  | done (r : Except PyErr Nat)
deriving Repr

/-- One iteration of the `while queue:` loop of `min_cost_to_end`:
pop the minimal entry; return its cost if it sits on the end position;
skip it if its position was already visited; otherwise mark the position
visited, skip walls (indexing the maze may raise), and push the
turn-left, forward and turn-right successors. -/
def minStep (maze : Maze) (mc tc : Nat) (endPos : Pos) (cfg : MCfg) : MRes :=
  match popMin entryLE cfg.queue with
  | none => .done (.error (.valueError "No path to the end of the maze found."))
  | some (e, rest) =>
    if e.pos = endPos then .done (.ok e.cost)
    else if cfg.visited.contains e.pos then .more ⟨rest, cfg.visited, cfg.cnt⟩
    else
      let visited' := e.pos :: cfg.visited
      match cellAtPy maze e.pos with
      | none => .done (.error .indexError)
      | some c =>
        if c = Cell.cwall then .more ⟨rest, visited', cfg.cnt⟩
        else
          let ld := e.dir.turn_counter_clockwise
          let rd := e.dir.turn_clockwise
          let fwd := e.cost + mc
          let side := tc + fwd
          let eL : MEntry := ⟨side, cfg.cnt, ld.advance e.pos, ld⟩
          let eF : MEntry := ⟨fwd, cfg.cnt + 1, e.dir.advance e.pos, e.dir⟩
          let eR : MEntry := ⟨side, cfg.cnt + 2, rd.advance e.pos, rd⟩
          .more ⟨rest ++ [eL, eF, eR], visited', cfg.cnt + 3⟩

/-- The fuel-bounded `while queue:` loop of `min_cost_to_end`. -/
def minLoop (maze : Maze) (mc tc : Nat) (endPos : Pos) : Nat → MCfg → Except PyErr Nat
  | 0, _ => .error .fuelOut
  | n + 1, cfg =>
    match minStep maze mc tc endPos cfg with
    | .done r => r
    | .more c => minLoop maze mc tc endPos n c

/-- The initial loop state of both searches: the single entry
`(0, 0, start, start_direction)` and the counter at 1. -/
def initMCfg (maze : Maze) (d0 : Dir) : MCfg :=
  ⟨[⟨0, 0, find_start_position maze, d0⟩], [], 1⟩

/-- `min_cost_to_end maze start_direction move_cost turn_cost`, run with
the given fuel. -/
def min_cost_to_end (maze : Maze) (d0 : Dir) (mc tc fuel : Nat) : Except PyErr Nat :=
  match find_end_position maze with
  | .error e => .error e
  | .ok endPos => minLoop maze mc tc endPos fuel (initMCfg maze d0)

/-- The trace of loop states of `min_cost_to_end`: `minRun … n` is the
state after `n` iterations (frozen once the loop has finished). -/
def minRun (maze : Maze) (mc tc : Nat) (endPos : Pos) (cfg : MCfg) : Nat → MCfg
  | 0 => cfg
  | n + 1 =>
    let c := minRun maze mc tc endPos cfg n
    match minStep maze mc tc endPos c with
    | .more c' => c'
    | .done _ => c

/-- The entry popped at iteration `n` of `min_cost_to_end`. -/
def poppedAt (maze : Maze) (mc tc : Nat) (endPos : Pos) (cfg : MCfg) (n : Nat) :
    Option MEntry :=
  (popMin entryLE (minRun maze mc tc endPos cfg n).queue).map Prod.fst

/-- A frontier entry of `count_best_path_tiles`: the heap tuple
`(cost, counter, position, direction, previous_node)`, a linked chain of
back-pointers exactly as the Python tuples reference their predecessors. -/
inductive CNode
  | mk (cost : Nat) (k : Nat) (pos : Pos) (dir : Dir) (prev : Option CNode)
deriving Repr

def CNode.cost : CNode → Nat
  | .mk c _ _ _ _ => c

def CNode.k : CNode → Nat
  | .mk _ k _ _ _ => k

def CNode.pos : CNode → Pos
  | .mk _ _ p _ _ => p

def CNode.dir : CNode → Dir
  | .mk _ _ _ d _ => d

def CNode.prev : CNode → Option CNode
  | .mk _ _ _ _ p => p

/-- Heap order on `count_best_path_tiles` nodes: cost, then counter. -/
def nodeLE (a b : CNode) : Bool :=
  a.cost < b.cost || (a.cost == b.cost && a.k ≤ b.k)

/-- Lookup in the `min_cost_to_position` dictionary. -/
def recGet (r : List (Pos × Nat)) (p : Pos) : Option Nat :=
  match r with
  | [] => none
  | (q, c) :: rest => if q = p then some c else recGet rest p

/-- Overwriting insert into the `min_cost_to_position` dictionary. -/
def recSet (r : List (Pos × Nat)) (p : Pos) (c : Nat) : List (Pos × Nat) :=
  (p, c) :: r

/-- The loop state of `count_best_path_tiles`: frontier, the
`min_cost_to_position` record, the `best_paths` list of end nodes, and the
tie-break counter. -/
structure CCfg where
  queue : List CNode
  record : List (Pos × Nat)
  best : List CNode
  cnt : Nat
deriving Repr

/-- A cell of the maze after `count_best_path_tiles` has returned: either
the original cell, or the string `"O"` the function wrote over it. -/
inductive DCell
  | cell (c : Cell)
  | oMark
deriving DecidableEq, Repr

/-- The positions of a back-pointer chain (the `while node:` walk). -/
def chainPositions : CNode → List Pos
  | .mk _ _ p _ none => [p]
  | .mk _ _ p _ (some n) => p :: chainPositions n

/-- Add a position to the `best_path_positions` set. -/
def insertPos (p : Pos) (s : List Pos) : List Pos :=
  if s.contains p then s else p :: s

/-- The `best_path_positions` set: the union of the chain positions of all
recorded best end nodes. -/
def collectPositions : List CNode → List Pos
  | [] => []
  | n :: ns => (chainPositions n).foldl (fun s p => insertPos p s) (collectPositions ns)

/-- The content of the caller's maze after `count_best_path_tiles` has
returned: `maze.copy()` is a shallow copy sharing the row lists, so the
assignments `display_maze[y][x] = "O"` overwrite the caller's rows at every
best-path position. -/
def markMaze (maze : Maze) (s : List Pos) : List (List DCell) :=
  (List.range maze.length).map fun (y : Nat) =>
    let row := maze.getD y []
    (List.range row.length).map fun (x : Nat) =>
      if s.contains (((x : Nat) : Int), ((y : Nat) : Int)) then DCell.oMark
      else DCell.cell (row.getD x Cell.cwall)

/-- The value of `count_best_path_tiles` once the frontier is exhausted:
the size of the `best_path_positions` set, paired with the caller's maze
rows as the function leaves them. -/
def cbFinish (maze : Maze) (best : List CNode) : Nat × List (List DCell) :=
  let s := collectPositions best
  (s.length, markMaze maze s)

/-- Result of one iteration of the `count_best_path_tiles` loop. -/
inductive CRes
  | more (c : CCfg)
  | done (r : Except PyErr (Nat × List (List DCell)))
deriving Repr

/-- One iteration of the `while queue:` loop of `count_best_path_tiles`:
pop the minimal node; skip walls (indexing may raise); skip it if its cost
exceeds the recorded cost of the end position, or the recorded cost of its
own position; otherwise record its cost; append it to `best_paths` if it
sits on the end position, else push the three successors. -/
def cbStep (maze : Maze) (mc tc : Nat) (endPos : Pos) (cfg : CCfg) : CRes :=
  match popMin nodeLE cfg.queue with
  | none => .done (.ok (cbFinish maze cfg.best))
  | some (node, rest) =>
    match cellAtPy maze node.pos with
    | none => .done (.error .indexError)
    | some c =>
      if c = Cell.cwall then .more ⟨rest, cfg.record, cfg.best, cfg.cnt⟩
      else
        match recGet cfg.record endPos with
        | none => .done (.error .keyError)
        | some endRec =>
          if endRec < node.cost then .more ⟨rest, cfg.record, cfg.best, cfg.cnt⟩
          else
            let prune : Bool :=
              match recGet cfg.record node.pos with
              | some pc => decide (pc < node.cost)
              | none => false
            if prune then .more ⟨rest, cfg.record, cfg.best, cfg.cnt⟩
            else
              let rec' := recSet cfg.record node.pos node.cost
              if node.pos = endPos then
                .more ⟨rest, rec', cfg.best ++ [node], cfg.cnt⟩
              else
                let ld := node.dir.turn_counter_clockwise
                let rd := node.dir.turn_clockwise
                let fwd := node.cost + mc
                let side := tc + fwd
                let nL : CNode := .mk side cfg.cnt (ld.advance node.pos) ld (some node)
                let nF : CNode := .mk fwd (cfg.cnt + 1) (node.dir.advance node.pos) node.dir (some node)
                let nR : CNode := .mk side (cfg.cnt + 2) (rd.advance node.pos) rd (some node)
                .more ⟨rest ++ [nL, nF, nR], rec', cfg.best, cfg.cnt + 3⟩

/-- The fuel-bounded `while queue:` loop of `count_best_path_tiles`. -/
def cbLoop (maze : Maze) (mc tc : Nat) (endPos : Pos) :
    Nat → CCfg → Except PyErr (Nat × List (List DCell))
  | 0, _ => .error .fuelOut
  | n + 1, cfg =>
    match cbStep maze mc tc endPos cfg with
    | .done r => r
    | .more c => cbLoop maze mc tc endPos n c

/-- The initial loop state of `count_best_path_tiles`: the single start
node, and `min_cost_to_position` seeded with the sentinel 999999999 at the
end position. -/
def initCCfg (maze : Maze) (d0 : Dir) (endPos : Pos) : CCfg :=
  ⟨[.mk 0 0 (find_start_position maze) d0 none], [(endPos, 999999999)], [], 1⟩

/-- `count_best_path_tiles maze start_direction move_cost turn_cost`, run
with the given fuel. Its value is the returned tile count paired with the
content of the caller's maze after the call. -/
def count_best_path_tiles (maze : Maze) (d0 : Dir) (mc tc fuel : Nat) :
    Except PyErr (Nat × List (List DCell)) :=
  match find_end_position maze with
  | .error e => .error e
  | .ok endPos => cbLoop maze mc tc endPos fuel (initCCfg maze d0 endPos)

/-- A maze unchanged by a call: every cell still a `Cell`, none overwritten. -/
def unmarked (maze : Maze) : List (List DCell) :=
  maze.map fun row => row.map DCell.cell

/-- The cost of one move per the cost model: `move_cost` when continuing
straight, `move_cost + turn_cost` after a 90 degree turn. -/
def stepCost (mc tc : Nat) (d m : Dir) : Nat :=
  if m = d then mc else mc + tc

/-- A legal change of facing in one move: straight, quarter turn left, or
quarter turn right (never a reversal). -/
def stepDirOK (d m : Dir) : Bool :=
  m == d || m == d.turn_clockwise || m == d.turn_counter_clockwise

/-- The cell at a position, without Python's negative wraparound: defined
exactly for in-bounds positions (of the actual row, for ragged mazes). -/
def cellAtNN (maze : Maze) (p : Pos) : Option Cell :=
  if 0 ≤ p.1 ∧ 0 ≤ p.2 then cellAtPy maze p else none

/-- A position a path may stand on: in bounds and not a wall. -/
def okPos (maze : Maze) (p : Pos) : Bool :=
  match cellAtNN maze p with
  | some c => c ≠ Cell.cwall
  | none => false

/-- Run a move sequence from a state. Each move must be a legal facing
change and land on an in-bounds non-wall cell; the result is the final
state and the total cost. This is the specification's notion of a
sequence of moves through non-wall cells. -/
def runMoves (maze : Maze) (mc tc : Nat) :
    Pos → Dir → List Dir → Option (Pos × Dir × Nat)
  | p, d, [] => some (p, d, 0)
  | p, d, m :: ms =>
    if stepDirOK d m then
      let p' := m.advance p
      if okPos maze p' then
        match runMoves maze mc tc p' m ms with
        | some (q, dq, c) => some (q, dq, stepCost mc tc d m + c)
        | none => none
      else none
    else none

/-- The positions a move sequence passes through (the start included). -/
def tracePositions : Pos → List Dir → List Pos
  | p, [] => [p]
  | p, m :: ms => p :: tracePositions (m.advance p) ms

/-- Run a move sequence checking every position it stands on except the
final one (the search frontier holds such entries: the landing cell of a
pushed entry has not yet been examined). -/
def runLoose (maze : Maze) (mc tc : Nat) :
    Pos → Dir → List Dir → Option (Pos × Dir × Nat)
  | p, d, [] => some (p, d, 0)
  | p, d, m :: ms =>
    if okPos maze p && stepDirOK d m then
      match runLoose maze mc tc (m.advance p) m ms with
      | some (q, dq, c) => some (q, dq, stepCost mc tc d m + c)
      | none => none
    else none

/-- There is a legal move sequence of cost `c` from the start state to the
position `q` (with some final facing): the specification's reachability. -/
def ReachesEnd (maze : Maze) (mc tc : Nat) (p0 : Pos) (d0 : Dir) (q : Pos) (c : Nat) : Prop :=
  okPos maze p0 = true ∧
    ∃ ms d, runMoves maze mc tc p0 d0 ms = some (q, d, c)

/-- Modelled from the spec: `find(Grid, CellKind)` returns the position of
the first cell of the given kind in row-major order, when one exists (the
source has no such search; its `find_start_position` and
`find_end_position` return fixed coordinates). -/
def findRowMajor (maze : Maze) (k : Cell) : Option Pos :=
  let rec goRow (y : Nat) (x : Nat) (row : List Cell) : Option Pos :=
    match row with
    | [] => none
    | c :: rest =>
      if c = k then some (((x : Nat) : Int), ((y : Nat) : Int))
      else goRow y (x + 1) rest
  let rec go (y : Nat) (rows : List (List Cell)) : Option Pos :=
    match rows with
    | [] => none
    | row :: rest =>
      match goRow y 0 row with
      | some p => some p
      | none => go (y + 1) rest
  go 0 maze

/-- Shorthand for maze literals: a wall cell. -/
def X : Cell := Cell.cwall

/-- Shorthand for maze literals: an open cell. -/
def o : Cell := Cell.cempty

/-- Shorthand for maze literals: the start cell. -/
def S : Cell := Cell.cstart

/-- Shorthand for maze literals: the end cell. -/
def E : Cell := Cell.cend

/-- A character the loader recognizes. -/
def recognizedChar (c : Char) : Bool :=
  c = 'S' || c = 'E' || c = '.' || c = '#'

/-- All in-bounds states of a maze: every position of every row, paired
with each of the four directions. -/
def allStates (maze : Maze) : List (Pos × Dir) :=
  ((List.range maze.length).flatMap fun (y : Nat) =>
    (List.range ((maze.getD y []).length)).map fun (x : Nat) =>
      ((((x : Nat) : Int), ((y : Nat) : Int)) : Pos)).flatMap fun p =>
    [Dir.north, Dir.east, Dir.south, Dir.west].map fun d => (p, d)

/-- Check that `phi` is a feasible shortest-path potential: along every
legal move between standable cells, `phi` grows by at most the move's
cost. A feasible potential lower-bounds the cost of every move sequence
(`le_cost_of_checkPot`). -/
def checkPot (maze : Maze) (mc tc : Nat) (phi : Pos → Dir → Nat) : Bool :=
  (allStates maze).all fun s =>
    [s.2, s.2.turn_clockwise, s.2.turn_counter_clockwise].all fun m =>
      let p' := m.advance s.1
      !(okPos maze s.1 && okPos maze p') ||
        decide (phi p' m ≤ phi s.1 s.2 + stepCost mc tc s.2 m)

/-- Check that a set of positions is closed under legal movement: from a
standable member, every standable neighbour is again a member. Together
with membership of the start and non-membership of the goal this certifies
unreachability (`unreachable_of_posClosed`). -/
def posClosed (maze : Maze) (r : List Pos) : Bool :=
  r.all fun p =>
    !okPos maze p ||
      [Dir.north, Dir.east, Dir.south, Dir.west].all fun m =>
        let q := m.advance p
        !okPos maze q || r.contains q

/-- The width of a rectangular maze (length of its first row). -/
def mazeWidth (maze : Maze) : Nat :=
  (maze.headD []).length

/-- A rectangular maze: every row has the width of the first. -/
def rectangular (maze : Maze) : Prop :=
  ∀ row ∈ maze, row.length = mazeWidth maze

/-- Every boundary cell of the maze is a wall. -/
def borderWalls (maze : Maze) : Prop :=
  ∀ y < maze.length, ∀ x < (maze.getD y []).length,
    (y = 0 ∨ y = maze.length - 1 ∨ x = 0 ∨ x = (maze.getD y []).length - 1) →
    (maze.getD y []).getD x Cell.cwall = Cell.cwall

instance (maze : Maze) : Decidable (rectangular maze) := by
  unfold rectangular
  infer_instance

instance (maze : Maze) : Decidable (borderWalls maze) := by
  unfold borderWalls
  infer_instance

/-- The maze of claim C1's failing input (9 by 7). -/
def MZ1 : Maze :=
  [[X, X, X, X, X, X, X, X, X],
   [X, o, X, o, o, o, X, E, X],
   [X, o, X, o, X, o, o, o, X],
   [X, o, o, o, X, o, o, X, X],
   [X, o, X, o, o, X, o, o, X],
   [X, S, X, o, o, o, o, X, X],
   [X, X, X, X, X, X, X, X, X]]

/-- A move sequence from the start state of `MZ1` to its end position of
cost 7012, two turns fewer than the value `min_cost_to_end` returns. -/
def MS1 : List Dir :=
  [.north, .north, .east, .east, .north, .north, .east, .east, .south,
   .east, .east, .north]

/-- The maze of claim C2's failing input (7 by 5). It has three
minimum-cost paths (cost 2006), through the left column, the middle
column and the right column. -/
def G2 : Maze :=
  [[X, X, X, X, X, X, X],
   [X, o, o, o, o, E, X],
   [X, o, X, o, o, o, X],
   [X, S, o, o, o, X, X],
   [X, X, X, X, X, X, X]]

/-- A minimum-cost move sequence of `G2` through the cell `(1, 1)`,
which `count_best_path_tiles` fails to report. -/
def MS2 : List Dir :=
  [.north, .north, .east, .east, .east, .east]

/-- A feasible potential for `G2` with move cost 1 and turn cost 1000:
the true minimum cost from the start state, capped at 2006. States absent
from the table are unreachable and get the cap. -/
def phiTbl : List ((Pos × Dir) × Nat) :=
  [(((4, 1), .east), 2005), (((2, 1), .west), 2005), (((5, 2), .east), 2005),
   (((3, 2), .west), 2005), (((3, 1), .east), 2004), (((4, 2), .east), 2004),
   (((2, 1), .east), 2003), (((4, 1), .north), 1005), (((3, 1), .north), 1004),
   (((4, 2), .north), 1004), (((3, 2), .north), 1003), (((1, 1), .north), 1002),
   (((1, 2), .north), 1001), (((4, 3), .east), 3), (((3, 3), .east), 2),
   (((2, 3), .east), 1), (((1, 3), .east), 0)]

/-- The potential function of `phiTbl`. -/
def phi2 (p : Pos) (d : Dir) : Nat :=
  (phiTbl.lookup (p, d)).getD 2006

/-- The maze of claim C3's run trace (6 by 5): the cell `(2, 2)` is first
finalized facing north; its east-facing state is later popped and
discarded although that state was never finalized. -/
def G3 : Maze :=
  [[X, X, X, X, X, X],
   [X, o, o, o, E, X],
   [X, o, X, o, X, X],
   [X, S, o, o, X, X],
   [X, X, X, X, X, X]]

/-- The maze of claim C8's failing input (5 by 4): the bottom row has an
open cell at `(1, 3)`, so the search pushes the out-of-bounds position
`(1, 4)` and crashes indexing `maze[4]` when it pops it. -/
def G8 : Maze :=
  [[X, X, X, X, X],
   [X, o, o, E, X],
   [X, S, o, o, X],
   [X, o, X, X, X]]

/-- The maze of claim C9's failing input (18 by 9): a short staircase
route with four turns and a long perimeter route with three turns meet at
the junction `(5, 3)`; which one is finalized there first flips between
turn costs 22 and 23, and the staircase's arrival direction wastes a turn
on the continuation, so the returned cost drops from 153 to 135. -/
def G9 : Maze :=
  [[X, X, X, X, X, X, X, X, X, X, X, X, X, X, X, X, X, X],
   [X, X, X, X, X, o, o, o, o, o, o, o, o, o, o, o, E, X],
   [X, X, X, X, X, o, X, X, X, X, X, X, X, X, X, X, X, X],
   [X, X, X, X, o, o, X, X, X, X, X, X, X, X, X, X, X, X],
   [X, X, X, X, o, o, o, o, o, o, o, o, o, o, o, o, o, X],
   [X, X, X, o, o, X, X, X, X, X, X, X, X, X, X, X, o, X],
   [X, X, o, o, X, X, X, X, X, X, X, X, X, X, X, X, o, X],
   [X, S, o, o, o, o, o, o, o, o, o, o, o, o, o, o, o, X],
   [X, X, X, X, X, X, X, X, X, X, X, X, X, X, X, X, X, X]]

/-- A 5 by 5 maze with a unique minimum-cost path of five cells; used to
exhibit the mutation of the caller's maze (C5) and, with a turn cost
above the sentinel, the zero result of `count_best_path_tiles` (C10). -/
def G5 : Maze :=
  [[X, X, X, X, X],
   [X, o, o, E, X],
   [X, o, o, o, X],
   [X, S, o, o, X],
   [X, X, X, X, X]]

/-- A wall-bordered 5 by 4 maze whose end cell is walled off from the
start: the reachable positions are exactly `(1, 2)` and `(1, 1)`. -/
def G4c : Maze :=
  [[X, X, X, X, X],
   [X, o, X, E, X],
   [X, S, X, o, X],
   [X, X, X, X, X]]

/-- The set of positions reachable in `G4c`, closed under movement. -/
def R4 : List Pos :=
  [(1, 2), (1, 1)]

/-- A 5 by 5 maze open up to its right border on the start row: the
search walks east past the edge and raises `IndexError` (C10's
counterexample input needs the huge turn cost to make every legal path
dearer than the sentinel). -/
def G10x : Maze :=
  [[X, X, X, X, X],
   [X, o, o, E, X],
   [X, o, o, o, X],
   [X, S, o, o, o],
   [X, X, X, X, X]]

/-- The content of the caller's maze after `count_best_path_tiles G2`:
the cells of the single path the search kept are overwritten with `"O"`;
the optimal cells `(1, 1)`, `(2, 1)`, `(3, 1)`, `(1, 2)`, `(3, 2)` of the
other two minimum-cost paths stay untouched. -/
def M2 : List (List DCell) :=
  [[.cell X, .cell X, .cell X, .cell X, .cell X, .cell X, .cell X],
   [.cell X, .cell o, .cell o, .cell o, .oMark, .oMark, .cell X],
   [.cell X, .cell o, .cell X, .cell o, .oMark, .cell o, .cell X],
   [.cell X, .oMark, .oMark, .oMark, .oMark, .cell X, .cell X],
   [.cell X, .cell X, .cell X, .cell X, .cell X, .cell X, .cell X]]

/-- The content of the caller's maze after `count_best_path_tiles G5`:
the five cells of the minimum-cost path, the End cell `(3, 1)` included,
are overwritten with the string `"O"`. -/
def M5 : List (List DCell) :=
  [[.cell X, .cell X, .cell X, .cell X, .cell X],
   [.cell X, .cell o, .cell o, .oMark, .cell X],
   [.cell X, .cell o, .cell o, .oMark, .cell X],
   [.cell X, .oMark, .oMark, .oMark, .cell X],
   [.cell X, .cell X, .cell X, .cell X, .cell X]]

/-- All in-bounds positions of a `wN` by `hN` grid. -/
def posRange (wN hN : Nat) : List Pos :=
  (List.range hN).flatMap fun (y : Nat) =>
    (List.range wN).map fun (x : Nat) => ((((x : Nat) : Int), ((y : Nat) : Int)) : Pos)

/-- Termination measure of the `min_cost_to_end` loop: each iteration
either shrinks the frontier or claims an unvisited in-bounds position. -/
def minMeasure (maze : Maze) (cfg : MCfg) : Nat :=
  cfg.queue.length +
    4 * ((posRange (mazeWidth maze) maze.length).filter
      fun p => !cfg.visited.contains p).length

/-- Invariant of the `min_cost_to_end` loop on wall-bordered rectangular
mazes: every frontier entry is in bounds and is realized by a move
sequence from the start state whose cost is the entry's cost (the landing
cell of the final move not yet examined). -/
def MQInv (maze : Maze) (mc tc : Nat) (p0 : Pos) (d0 : Dir) (cfg : MCfg) : Prop :=
  ∀ e ∈ cfg.queue,
    is_within_bounds maze e.pos = true ∧
      ∃ ms, runLoose maze mc tc p0 d0 ms = some (e.pos, e.dir, e.cost)

/-- Invariant of the `count_best_path_tiles` loop on wall-bordered
rectangular mazes: frontier nodes are in bounds and realized by move
sequences of their cost; the recorded cost of the end position never
exceeds the 999999999 sentinel; and every node of `best_paths` sits on the
end position, costs at most the sentinel, and is realized by a move
sequence. -/
def CInv (maze : Maze) (mc tc : Nat) (p0 : Pos) (d0 : Dir) (endPos : Pos) (cfg : CCfg) : Prop :=
  (∀ e ∈ cfg.queue,
    is_within_bounds maze e.pos = true ∧
      ∃ ms, runLoose maze mc tc p0 d0 ms = some (e.pos, e.dir, e.cost)) ∧
  (∃ v, recGet cfg.record endPos = some v ∧ v ≤ 999999999) ∧
  (∀ b ∈ cfg.best, b.pos = endPos ∧ b.cost ≤ 999999999 ∧
      ∃ ms, runLoose maze mc tc p0 d0 ms = some (endPos, b.dir, b.cost))

theorem interpret_ok_of_recognized (c : Char) (h : recognizedChar c = true) :
    ∃ cell, interpret_char_as_cell c = .ok cell := by
  unfold recognizedChar at h
  unfold interpret_char_as_cell
  rcases Bool.or_eq_true_iff.mp h with h' | h''
  · rcases Bool.or_eq_true_iff.mp h' with h1 | h1
    · rcases Bool.or_eq_true_iff.mp h1 with h2 | h2 <;> simp_all
    · simp_all
  · simp_all

theorem interpret_err_of_unrecognized (c : Char) (h : recognizedChar c = false) :
    interpret_char_as_cell c =
      .error (.valueError ("Unknown cell character: " ++ String.singleton c)) := by
  unfold recognizedChar at h
  unfold interpret_char_as_cell
  simp only [Bool.or_eq_false_iff, decide_eq_false_iff_not] at h
  obtain ⟨⟨⟨h1, h2⟩, h3⟩, h4⟩ := h
  simp [h1, h2, h3, h4]

theorem read_row_err_of_bad (row : List Char)
    (h : row.any (fun c => !recognizedChar c) = true) :
    ∃ e, read_row row = .error e := by
  induction row with
  | nil => simp at h
  | cons c cs ih =>
    simp only [List.any_cons, Bool.or_eq_true_iff] at h
    rcases h with h | h
    · refine ⟨.valueError ("Unknown cell character: " ++ String.singleton c), ?_⟩
      unfold read_row
      rw [interpret_err_of_unrecognized c (by simpa using h)]
    · by_cases hc : recognizedChar c = true
      · obtain ⟨cell, hcell⟩ := interpret_ok_of_recognized c hc
        obtain ⟨e, he⟩ := ih h
        refine ⟨e, ?_⟩
        unfold read_row
        rw [hcell, he]
      · refine ⟨.valueError ("Unknown cell character: " ++ String.singleton c), ?_⟩
        unfold read_row
        rw [interpret_err_of_unrecognized c (by simpa using hc)]

theorem read_maze_err_of_bad (rows : List (List Char))
    (h : rows.any (fun r => r.any fun c => !recognizedChar c) = true) :
    ∃ e, read_maze rows = .error e := by
  induction rows with
  | nil => simp at h
  | cons row rest ih =>
    simp only [List.any_cons, Bool.or_eq_true_iff] at h
    rcases h with h | h
    · obtain ⟨e, he⟩ := read_row_err_of_bad row h
      refine ⟨e, ?_⟩
      unfold read_maze
      rw [he]
    · obtain ⟨e, he⟩ := ih h
      cases hr : read_row row with
      | error e' =>
        refine ⟨e', ?_⟩
        unfold read_maze
        rw [hr]
      | ok cells =>
        refine ⟨e, ?_⟩
        unfold read_maze
        rw [hr, he]

/-- A 4 by 4 maze whose first Start cell in row-major order is at `(0, 0)`,
while the cell at the hard-coded "start position" `(1, 2)` is a wall; it
contains no End cell at all. -/
def G6 : Maze :=
  [[S, o, o, o],
   [o, o, o, o],
   [o, X, o, o],
   [o, o, o, o]]

/-- A 3 by 2 maze containing neither a Start nor an End cell. -/
def G6n : Maze :=
  [[o, o],
   [o, o],
   [o, o]]

/-- C6, counterexample. Finding the Start cell neither scans in row-major
order nor fails when the cell is missing: on `G6` the first Start cell in
row-major order is `(0, 0)` but `find_start_position` returns the fixed
position `(1, 2)`, which holds a wall; `find_end_position` returns `(2, 1)`
although `G6` has no End cell; and on `G6n`, which has no Start cell at
all, `find_start_position` returns `(1, 1)` instead of failing. -/
theorem claim6_counterexample :
    find_start_position G6 = (1, 2) ∧
    findRowMajor G6 Cell.cstart = some (0, 0) ∧
    cellAtNN G6 (1, 2) = some Cell.cwall ∧
    findRowMajor G6 Cell.cend = none ∧
    find_end_position G6 = .ok (2, 1) ∧
    findRowMajor G6n Cell.cstart = none ∧
    find_start_position G6n = (1, 1) := by
  refine ⟨rfl, ?_, rfl, ?_, rfl, ?_, rfl⟩ <;> rfl

/-- C6, amended. `find_start_position` and `find_end_position` never
examine the grid's cells and never fail on a non-empty grid: the start
position is always `(1, height - 2)` (equal for any two grids of the same
height), and the end position is always `(width of first row - 2, 1)`. -/
theorem claim6_amended (maze maze' : Maze) (h : maze.length = maze'.length) :
    find_start_position maze = find_start_position maze' ∧
    find_start_position maze = (1, (maze.length : Int) - 2) ∧
    ∀ r0 rs, find_end_position (r0 :: rs) = .ok ((r0.length : Int) - 2, 1) := by
  refine ⟨?_, rfl, fun r0 rs => rfl⟩
  unfold find_start_position
  rw [h]

/-- C6, witness for the amended theorem at two concrete grids of height 4. -/
theorem claim6_witness :
    find_start_position G6 = find_start_position [[o], [o], [o], [o]] ∧
    find_start_position G6 = (1, (G6.length : Int) - 2) ∧
    ∀ r0 rs, find_end_position (r0 :: rs) = .ok ((r0.length : Int) - 2, 1) :=
  claim6_amended G6 [[o], [o], [o], [o]] (by decide)

/-- Rows of unequal lengths (3, 1 and 2 characters). -/
def raggedRows : List (List Char) :=
  [['S', '.', '.'], ['#'], ['.', 'E']]

/-- A second ragged input, used by the amended theorem. -/
def raggedRows2 : List (List Char) :=
  [['S'], ['.', 'E']]

/-- C7, counterexample. Loading does not fail fast on rows of inconsistent
lengths: the ragged input `raggedRows` is accepted and returns a (ragged)
grid instead of a `MalformedGridError`. -/
theorem claim7_counterexample :
    read_maze raggedRows = .ok [[S, o, o], [X], [o, E]] := by rfl

/-- C7, amended. Loading fails (with the `ValueError` of
`interpret_char_as_cell`) for every input containing a character other
than `S`, `E`, `.`, `#`, but performs no row-length validation: ragged
inputs load successfully. -/
theorem claim7_amended :
    (∀ rows : List (List Char),
       rows.any (fun r => r.any fun c => !recognizedChar c) = true →
       ∃ e, read_maze rows = .error e) ∧
    read_maze raggedRows2 = .ok [[S], [o, E]] := by
  exact ⟨read_maze_err_of_bad, rfl⟩

/-- C7, witness: the amended theorem applied to a concrete input holding
the unrecognized character `Q`. -/
theorem claim7_witness :
    ∃ e, read_maze [['S', '.'], ['.', 'Q']] = .error e :=
  claim7_amended.1 [['S', '.'], ['.', 'Q']] (by decide)

theorem cellAtNN_nonneg {maze : Maze} {p : Pos} {c : Cell}
    (h : cellAtNN maze p = some c) : 0 ≤ p.1 ∧ 0 ≤ p.2 := by
  unfold cellAtNN at h
  by_cases h0 : 0 ≤ p.1 ∧ 0 ≤ p.2
  · exact h0
  · simp [h0] at h

theorem pyIdx_some {α : Type} {xs : List α} {i : Int} {a : α}
    (h0 : 0 ≤ i) (h : pyIdx xs i = some a) :
    i.toNat < xs.length ∧ xs.get? i.toNat = some a := by
  unfold pyIdx at h
  rw [if_pos h0] at h
  by_cases hl : i < (xs.length : Int)
  · rw [if_pos hl] at h
    refine ⟨?_, h⟩
    omega
  · rw [if_neg hl] at h
    exact absurd h (by simp)

theorem cellAtNN_bounds {maze : Maze} {p : Pos} {c : Cell}
    (h : cellAtNN maze p = some c) :
    ∃ row, p.2.toNat < maze.length ∧ maze.get? p.2.toNat = some row ∧
      p.1.toNat < row.length ∧ row.get? p.1.toNat = some c := by
  obtain ⟨h1, h2⟩ := cellAtNN_nonneg h
  unfold cellAtNN at h
  rw [if_pos ⟨h1, h2⟩] at h
  unfold cellAtPy at h
  cases hy : pyIdx maze p.2 with
  | none => rw [hy] at h; simp at h
  | some row =>
    rw [hy] at h
    simp only [Option.bind] at h
    obtain ⟨hyl, hyg⟩ := pyIdx_some h2 hy
    obtain ⟨hxl, hxg⟩ := pyIdx_some h1 h
    exact ⟨row, hyl, hyg, hxl, hxg⟩

theorem okPos_cell {maze : Maze} {p : Pos} (h : okPos maze p = true) :
    ∃ c, cellAtNN maze p = some c ∧ c ≠ Cell.cwall := by
  unfold okPos at h
  cases hc : cellAtNN maze p with
  | none => rw [hc] at h; simp at h
  | some c =>
    rw [hc] at h
    refine ⟨c, rfl, ?_⟩
    simpa using h

theorem getD_of_get? {α : Type} {xs : List α} {i : Nat} {a : α} (dflt : α)
    (h : xs.get? i = some a) : xs.getD i dflt = a := by
  induction xs generalizing i with
  | nil => simp at h
  | cons x xs ih =>
    cases i with
    | zero => simp at h; simp [List.getD, h]
    | succ j =>
      simp only [List.get?] at h
      have := ih h
      simpa [List.getD] using this

theorem mem_allStates_of_okPos {maze : Maze} {p : Pos} (d : Dir)
    (h : okPos maze p = true) : (p, d) ∈ allStates maze := by
  obtain ⟨c, hc, _⟩ := okPos_cell h
  obtain ⟨h1, h2⟩ := cellAtNN_nonneg hc
  obtain ⟨row, hyl, hyg, hxl, hxg⟩ := cellAtNN_bounds hc
  unfold allStates
  rw [List.mem_flatMap]
  refine ⟨p, ?_, ?_⟩
  · rw [List.mem_flatMap]
    refine ⟨p.2.toNat, by simpa using hyl, ?_⟩
    rw [List.mem_map]
    refine ⟨p.1.toNat, ?_, ?_⟩
    · rw [List.mem_range]
      rw [getD_of_get? [] hyg]
      exact hxl
    · obtain ⟨px, py⟩ := p
      simp only at h1 h2 ⊢
      rw [Int.toNat_of_nonneg h1, Int.toNat_of_nonneg h2]
  · rw [List.mem_map]
    exact ⟨d, by cases d <;> simp, rfl⟩

theorem stepDirOK_mem {d m : Dir} (h : stepDirOK d m = true) :
    m ∈ [d, d.turn_clockwise, d.turn_counter_clockwise] := by
  unfold stepDirOK at h
  rcases Bool.or_eq_true_iff.mp h with h' | h'
  · rcases Bool.or_eq_true_iff.mp h' with h'' | h''
    · simp [beq_iff_eq.mp h'']
    · simp [beq_iff_eq.mp h'']
  · simp [beq_iff_eq.mp h']

/-- A feasible potential lower-bounds the cost of every move sequence. -/
theorem le_cost_of_checkPot {maze : Maze} {mc tc : Nat} {phi : Pos → Dir → Nat}
    (hpot : checkPot maze mc tc phi = true) :
    ∀ (ms : List Dir) (p : Pos) (d : Dir) (q : Pos) (dq : Dir) (c : Nat),
      runMoves maze mc tc p d ms = some (q, dq, c) →
      okPos maze p = true →
      phi q dq ≤ phi p d + c := by
  intro ms
  induction ms with
  | nil =>
    intro p d q dq c h _
    unfold runMoves at h
    simp only [Option.some.injEq, Prod.mk.injEq] at h
    obtain ⟨rfl, rfl, rfl⟩ := h
    simp
  | cons m ms ih =>
    intro p d q dq c h hok
    unfold runMoves at h
    by_cases hd : stepDirOK d m = true
    · rw [if_pos hd] at h
      by_cases hok' : okPos maze (m.advance p) = true
      · rw [if_pos hok'] at h
        cases hr : runMoves maze mc tc (m.advance p) m ms with
        | none => rw [hr] at h; simp at h
        | some r =>
          obtain ⟨q', dq', c'⟩ := r
          rw [hr] at h
          simp only [Option.some.injEq, Prod.mk.injEq] at h
          obtain ⟨rfl, rfl, rfl⟩ := h
          have hstep : phi (m.advance p) m ≤ phi p d + stepCost mc tc d m := by
            have hs := (List.all_eq_true.mp (by unfold checkPot at hpot; exact hpot))
              (p, d) (mem_allStates_of_okPos d hok)
            have hm := List.all_eq_true.mp hs m (by
              have := stepDirOK_mem hd
              simpa using this)
            simp only [hok, hok', Bool.and_self, Bool.not_true, Bool.false_or,
              decide_eq_true_eq] at hm
            exact hm
          have hrec := ih (m.advance p) m q' dq' c' hr hok'
          omega
      · rw [if_neg hok'] at h
        exact absurd h (by simp)
    · rw [if_neg hd] at h
      exact absurd h (by simp)

/-- Every move sequence from a member of a movement-closed position set
ends inside the set. -/
theorem end_mem_of_posClosed {maze : Maze} {r : List Pos}
    (hc : posClosed maze r = true) {mc tc : Nat} :
    ∀ (ms : List Dir) (p : Pos) (d : Dir) (q : Pos) (dq : Dir) (c : Nat),
      runMoves maze mc tc p d ms = some (q, dq, c) →
      okPos maze p = true → r.contains p = true → r.contains q = true := by
  intro ms
  induction ms with
  | nil =>
    intro p d q dq c h _ hp
    unfold runMoves at h
    simp only [Option.some.injEq, Prod.mk.injEq] at h
    obtain ⟨rfl, rfl, rfl⟩ := h
    exact hp
  | cons m ms ih =>
    intro p d q dq c h hok hp
    unfold runMoves at h
    by_cases hd : stepDirOK d m = true
    · rw [if_pos hd] at h
      by_cases hok' : okPos maze (m.advance p) = true
      · rw [if_pos hok'] at h
        cases hr : runMoves maze mc tc (m.advance p) m ms with
        | none => rw [hr] at h; simp at h
        | some res =>
          obtain ⟨q', dq', c'⟩ := res
          rw [hr] at h
          simp only [Option.some.injEq, Prod.mk.injEq] at h
          obtain ⟨rfl, rfl, rfl⟩ := h
          have hnext : r.contains (m.advance p) = true := by
            have hpm : p ∈ r := by
              have := hp
              simp only [List.contains] at this
              exact List.elem_iff.mp this
            have hcl := List.all_eq_true.mp (by unfold posClosed at hc; exact hc) p hpm
            simp only [hok, Bool.not_true, Bool.false_or] at hcl
            have hm := List.all_eq_true.mp hcl m (by cases m <;> simp)
            simp only [hok', Bool.not_true, Bool.false_or] at hm
            exact hm
          exact ih (m.advance p) m q' dq' c' hr hok' hnext
      · rw [if_neg hok'] at h
        exact absurd h (by simp)
    · rw [if_neg hd] at h
      exact absurd h (by simp)

/-- A move sequence cheaper than the turn cost never turns. -/
theorem moves_straight_of_cheap {maze : Maze} {mc tc : Nat} :
    ∀ (ms : List Dir) (p : Pos) (d : Dir) (q : Pos) (dq : Dir) (c : Nat),
      runMoves maze mc tc p d ms = some (q, dq, c) → c < tc →
      ∀ m ∈ ms, m = d := by
  intro ms
  induction ms with
  | nil => intro p d q dq c _ _ m hm; simp at hm
  | cons m0 ms ih =>
    intro p d q dq c h hc m hm
    unfold runMoves at h
    by_cases hd : stepDirOK d m0 = true
    · rw [if_pos hd] at h
      by_cases hok' : okPos maze (m0.advance p) = true
      · rw [if_pos hok'] at h
        cases hr : runMoves maze mc tc (m0.advance p) m0 ms with
        | none => rw [hr] at h; simp at h
        | some res =>
          obtain ⟨q', dq', c'⟩ := res
          rw [hr] at h
          simp only [Option.some.injEq, Prod.mk.injEq] at h
          obtain ⟨rfl, rfl, rfl⟩ := h
          have hm0 : m0 = d := by
            by_contra hne
            have : stepCost mc tc d m0 = mc + tc := by
              unfold stepCost
              rw [if_neg hne]
            omega
          rcases List.mem_cons.mp hm with rfl | hm'
          · exact hm0
          · have hms : ∀ m' ∈ ms, m' = m0 := by
              have hr' : runMoves maze mc tc (m0.advance p) m0 ms = some (q', dq', c') := hr
              intro m' hm''
              exact ih (m0.advance p) m0 q' dq' c' hr' (by omega) m' hm''
            rw [hms m hm']
            exact hm0
      · rw [if_neg hok'] at h
        exact absurd h (by simp)
    · rw [if_neg hd] at h
      exact absurd h (by simp)

/-- A move sequence of east moves only never changes the row. -/
theorem y_const_of_straight_east {maze : Maze} {mc tc : Nat} :
    ∀ (ms : List Dir) (p : Pos) (q : Pos) (dq : Dir) (c : Nat),
      runMoves maze mc tc p Dir.east ms = some (q, dq, c) →
      (∀ m ∈ ms, m = Dir.east) → q.2 = p.2 := by
  intro ms
  induction ms with
  | nil =>
    intro p q dq c h _
    unfold runMoves at h
    simp only [Option.some.injEq, Prod.mk.injEq] at h
    obtain ⟨rfl, rfl, rfl⟩ := h
    rfl
  | cons m0 ms ih =>
    intro p q dq c h hall
    have hm0 : m0 = Dir.east := hall m0 (List.mem_cons_self m0 ms)
    subst hm0
    unfold runMoves at h
    by_cases hd : stepDirOK Dir.east Dir.east = true
    · rw [if_pos hd] at h
      by_cases hok' : okPos maze (Dir.east.advance p) = true
      · rw [if_pos hok'] at h
        cases hr : runMoves maze mc tc (Dir.east.advance p) Dir.east ms with
        | none => rw [hr] at h; simp at h
        | some res =>
          obtain ⟨q', dq', c'⟩ := res
          rw [hr] at h
          simp only [Option.some.injEq, Prod.mk.injEq] at h
          obtain ⟨rfl, rfl, rfl⟩ := h
          have := ih (Dir.east.advance p) q' dq' c' hr
            (fun m hm => hall m (List.mem_cons_of_mem _ hm))
          rw [this]
          simp [Dir.advance, Dir.delta]
      · rw [if_neg hok'] at h
        exact absurd h (by simp)
    · rw [if_neg hd] at h
      exact absurd h (by simp)

/-- The cost of a fixed move sequence is monotone in the turn cost: the
same moves at a smaller turn cost succeed with a cost at most as large. -/
theorem runMoves_mono_turnCost {maze : Maze} {mc t1 t2 : Nat} (ht : t1 ≤ t2) :
    ∀ (ms : List Dir) (p : Pos) (d : Dir) (q : Pos) (dq : Dir) (c2 : Nat),
      runMoves maze mc t2 p d ms = some (q, dq, c2) →
      ∃ c1, c1 ≤ c2 ∧ runMoves maze mc t1 p d ms = some (q, dq, c1) := by
  intro ms
  induction ms with
  | nil =>
    intro p d q dq c2 h
    unfold runMoves at h
    simp only [Option.some.injEq, Prod.mk.injEq] at h
    obtain ⟨rfl, rfl, rfl⟩ := h
    exact ⟨0, le_rfl, rfl⟩
  | cons m ms ih =>
    intro p d q dq c2 h
    unfold runMoves at h
    by_cases hd : stepDirOK d m = true
    · rw [if_pos hd] at h
      by_cases hok' : okPos maze (m.advance p) = true
      · rw [if_pos hok'] at h
        cases hr : runMoves maze mc t2 (m.advance p) m ms with
        | none => rw [hr] at h; simp at h
        | some res =>
          obtain ⟨q', dq', c'⟩ := res
          rw [hr] at h
          simp only [Option.some.injEq, Prod.mk.injEq] at h
          obtain ⟨rfl, rfl, rfl⟩ := h
          obtain ⟨c1, hc1, hrun1⟩ := ih (m.advance p) m q' dq' c' hr
          refine ⟨stepCost mc t1 d m + c1, ?_, ?_⟩
          · have : stepCost mc t1 d m ≤ stepCost mc t2 d m := by
              unfold stepCost
              by_cases hm : m = d
              · simp [hm]
              · simp only [hm, if_false]
                omega
            omega
          · unfold runMoves
            rw [if_pos hd, if_pos hok', hrun1]
      · rw [if_neg hok'] at h
        exact absurd h (by simp)
    · rw [if_neg hd] at h
      exact absurd h (by simp)

theorem pyIdx_none_of_ge {α : Type} (xs : List α) (i : Int)
    (h : (xs.length : Int) ≤ i) : pyIdx xs i = none := by
  unfold pyIdx
  rw [if_pos (by omega), if_neg (by omega)]

/-- C1. `min_cost_to_end` does not return the minimum cost over all move
sequences: on `MZ1` it returns 7014, although the move sequence `MS1`
reaches the end position through non-wall cells for 7012 (the search
prunes states by position alone, so the junction `(3, 3)` is finalized
with the facing that needs one more turn later). -/
theorem claim1_min_cost_overestimates :
    min_cost_to_end MZ1 Dir.east 1 1000 600 = .ok 7014 ∧
    find_end_position MZ1 = .ok (7, 1) ∧
    okPos MZ1 (find_start_position MZ1) = true ∧
    runMoves MZ1 1 1000 (find_start_position MZ1) Dir.east MS1 =
      some ((7, 1), Dir.north, 7012) ∧
    7012 < 7014 :=
  ⟨by rfl, by rfl, by rfl, by rfl, by omega⟩

/-- C2. `count_best_path_tiles` does not compute all cells on minimum-cost
paths: on `G2` it returns 7 tiles and leaves `(1, 1)` unmarked, although
the move sequence `MS2` passes through `(1, 1)` and reaches the end
position at cost 2006, and no move sequence reaches the end position for
less than 2006 (certified by the feasible potential `phi2`). `G2` has
disjoint equal-cost optimal paths; the code reports only one of them. -/
theorem claim2_best_tiles_misses_optimal_cell :
    count_best_path_tiles G2 Dir.east 1 1000 2000 = .ok (7, M2) ∧
    find_end_position G2 = .ok (5, 1) ∧
    okPos G2 (find_start_position G2) = true ∧
    runMoves G2 1 1000 (find_start_position G2) Dir.east MS2 =
      some ((5, 1), Dir.east, 2006) ∧
    ((1 : Int), (1 : Int)) ∈ tracePositions (find_start_position G2) MS2 ∧
    ∀ ms d c, runMoves G2 1 1000 (find_start_position G2) Dir.east ms =
        some ((5, 1), d, c) → 2006 ≤ c := by
  refine ⟨by rfl, by rfl, by rfl, by rfl, by decide, ?_⟩
  intro ms d c h
  have hb := @le_cost_of_checkPot G2 1 1000 phi2
    (by decide) ms (find_start_position G2) Dir.east (5, 1) d c h (by rfl)
  have h0 : phi2 (find_start_position G2) Dir.east = 0 := by rfl
  have h1 : 2006 ≤ phi2 (5, 1) d := by cases d <;> decide
  omega

/-- C2, witness: the lower-bound conjunct of the C2 theorem applied to
the concrete move sequence `MS2` itself. -/
theorem claim2_witness : 2006 ≤ 2006 :=
  claim2_best_tiles_misses_optimal_cell.2.2.2.2.2 MS2 Dir.east 2006 (by rfl)

/-- C3, counterexample. The finalization record is not keyed by the full
(position, direction) state: in the run on `G3`, the only entry popped at
position `(2, 2)` during the first 15 iterations faces north, yet at
iteration 15 the east-facing entry `(2002, 12, (2, 2), east)` is popped
and discarded as a duplicate (the queue shrinks by one; the visited set
and the counter do not change and nothing is pushed), although the state
`((2, 2), east)` was never finalized. -/
theorem claim3_counterexample :
    (((List.range 15).filterMap fun n =>
        poppedAt G3 1 1000 (4, 1) (initMCfg G3 Dir.east) n).filter
      fun e => decide (e.pos = ((2 : Int), (2 : Int)))) =
      [⟨1002, 4, (2, 2), Dir.north⟩] ∧
    poppedAt G3 1 1000 (4, 1) (initMCfg G3 Dir.east) 15 =
      some ⟨2002, 12, (2, 2), Dir.east⟩ ∧
    (minRun G3 1 1000 (4, 1) (initMCfg G3 Dir.east) 16).visited =
      (minRun G3 1 1000 (4, 1) (initMCfg G3 Dir.east) 15).visited ∧
    (minRun G3 1 1000 (4, 1) (initMCfg G3 Dir.east) 16).cnt =
      (minRun G3 1 1000 (4, 1) (initMCfg G3 Dir.east) 15).cnt ∧
    (minRun G3 1 1000 (4, 1) (initMCfg G3 Dir.east) 16).queue.length + 1 =
      (minRun G3 1 1000 (4, 1) (initMCfg G3 Dir.east) 15).queue.length ∧
    (minRun G3 1 1000 (4, 1) (initMCfg G3 Dir.east) 16).queue.contains
      ⟨2002, 12, (2, 2), Dir.east⟩ = false :=
  ⟨by rfl, by rfl, by rfl, by rfl, by rfl, by rfl⟩

/-- C3, amended. Both search variants key their pruning on the position
alone, not on the full (position, direction) state: `min_cost_to_end`
discards any popped entry whose position is in the visited set, and
`count_best_path_tiles` discards any popped node whose cost exceeds the
cost recorded for the end position, whatever the entry's direction. -/
theorem claim3_amended :
    (∀ (maze : Maze) (mc tc : Nat) (endPos : Pos) (cfg : MCfg) (e : MEntry)
       (rest : List MEntry),
       popMin entryLE cfg.queue = some (e, rest) →
       e.pos ≠ endPos →
       cfg.visited.contains e.pos = true →
       minStep maze mc tc endPos cfg = .more ⟨rest, cfg.visited, cfg.cnt⟩) ∧
    (∀ (maze : Maze) (mc tc : Nat) (endPos : Pos) (cfg : CCfg) (node : CNode)
       (rest : List CNode) (c : Cell) (endRec : Nat),
       popMin nodeLE cfg.queue = some (node, rest) →
       cellAtPy maze node.pos = some c →
       c ≠ Cell.cwall →
       recGet cfg.record endPos = some endRec →
       endRec < node.cost →
       cbStep maze mc tc endPos cfg = .more ⟨rest, cfg.record, cfg.best, cfg.cnt⟩) := by
  constructor
  · intro maze mc tc endPos cfg e rest hpop hne hv
    unfold minStep
    rw [hpop]
    simp only [if_neg hne, hv, if_true]
  · intro maze mc tc endPos cfg node rest c endRec hpop hcell hnw hrec hlt
    unfold cbStep
    rw [hpop]
    dsimp only
    rw [hcell]
    dsimp only
    rw [if_neg hnw, hrec]
    dsimp only
    rw [if_pos hlt]

/-- C3, witness: the two discard rules applied at concrete
configurations; in each, the popped entry's direction (east) plays no
role in the discard. -/
theorem claim3_witness :
    minStep G3 1 1000 (4, 1) ⟨[⟨5, 3, (2, 2), Dir.east⟩], [(2, 2)], 7⟩ =
      .more ⟨[], [(2, 2)], 7⟩ ∧
    cbStep G3 1 1000 (4, 1) ⟨[.mk 11 0 (1, 1) Dir.east none], [((4, 1), 10)], [], 3⟩ =
      .more ⟨[], [((4, 1), 10)], [], 3⟩ :=
  ⟨claim3_amended.1 G3 1 1000 (4, 1) _ ⟨5, 3, (2, 2), Dir.east⟩ [] (by rfl)
      (by decide) (by decide),
    claim3_amended.2 G3 1 1000 (4, 1) _ (.mk 11 0 (1, 1) Dir.east none) [] Cell.cempty 10
      (by rfl) (by rfl) (by decide) (by rfl) (by decide)⟩

/-- C5. `count_best_path_tiles` mutates the caller's maze: it copies only
the outer list (`maze.copy()` is shallow), then writes the string `"O"`
over every best-path cell of the shared rows, so after the call on `G5`
the maze holds `M5`, in which five cells (the End cell included) no
longer hold the `Cell` kind they held before. `min_cost_to_end` performs
no writes at all. -/
theorem claim5_maze_mutated :
    count_best_path_tiles G5 Dir.east 1 1000 2000 = .ok (5, M5) ∧
    M5 ≠ unmarked G5 ∧
    (M5.getD 1 []).getD 3 (.cell X) = DCell.oMark ∧
    (G5.getD 1 []).getD 3 X = Cell.cend :=
  ⟨by rfl, by decide, by rfl, by rfl⟩

/-- C8, counterexample. The search does generate out-of-bounds
transitions: after six iterations on `G8` the frontier holds an entry
whose position fails `is_within_bounds`, and the run ends with
`IndexError` when that position is popped and the grid is indexed with
it, instead of returning or raising `NoPathError`. -/
theorem claim8_counterexample :
    ((minRun G8 1 1000 (3, 1) (initMCfg G8 Dir.east) 6).queue.any
      fun e => !(is_within_bounds G8 e.pos)) = true ∧
    min_cost_to_end G8 Dir.east 1 1000 100 = .error .indexError :=
  ⟨by rfl, by rfl⟩

/-- C8, amended. Successor states are pushed with no bounds check, and
popping an entry whose row index is at or past the grid height makes the
grid indexing raise `IndexError` (the claim's "every grid indexing
operation performed on a popped state is within range" fails). -/
theorem claim8_amended (maze : Maze) (mc tc : Nat) (endPos : Pos) (cfg : MCfg)
    (e : MEntry) (rest : List MEntry)
    (hpop : popMin entryLE cfg.queue = some (e, rest))
    (hne : e.pos ≠ endPos)
    (hnv : cfg.visited.contains e.pos = false)
    (hy : (maze.length : Int) ≤ e.pos.2) :
    minStep maze mc tc endPos cfg = .done (.error .indexError) := by
  unfold minStep
  rw [hpop]
  simp only [if_neg hne, hnv]
  have hcell : cellAtPy maze e.pos = none := by
    unfold cellAtPy
    rw [pyIdx_none_of_ge maze e.pos.2 hy]
    rfl
  rw [hcell]
  simp

/-- C8, witness: the amended theorem at a concrete configuration whose
popped entry sits one row below `G8`. -/
theorem claim8_witness :
    minStep G8 1 1000 (3, 1) ⟨[⟨3, 1, (1, 4), Dir.south⟩], [], 5⟩ =
      .done (.error .indexError) :=
  claim8_amended G8 1 1000 (3, 1) _ ⟨3, 1, (1, 4), Dir.south⟩ [] (by rfl)
    (by decide) (by rfl) (by decide)

/-- C9, counterexample. `min_cost_to_end` is not monotone in the turn
cost: on `G9` it returns 153 at turn cost 22 but 135 at turn cost 23
(raising the turn cost flips which arrival direction is finalized first
at the junction `(5, 3)`, and the dearer turn cost happens to pick the
route whose facing continues without an extra turn). -/
theorem claim9_counterexample :
    min_cost_to_end G9 Dir.east 1 22 2000 = .ok 153 ∧
    min_cost_to_end G9 Dir.east 1 23 2000 = .ok 135 ∧
    22 < 23 ∧ 135 < 153 :=
  ⟨by rfl, by rfl, by omega, by omega⟩

/-- C9, amended. The specified minimum — the cost of move sequences — is
monotone non-decreasing in the turn cost: every move sequence legal at
turn cost `t2` is legal at any `t1 ≤ t2` with the same endpoints and a
cost at most as large, so the true minimum can only grow with the turn
cost; the implementation violates monotonicity (see the counterexample). -/
theorem claim9_amended (maze : Maze) (mc t1 t2 : Nat) (ht : t1 ≤ t2)
    (ms : List Dir) (p : Pos) (d : Dir) (q : Pos) (dq : Dir) (c2 : Nat)
    (h : runMoves maze mc t2 p d ms = some (q, dq, c2)) :
    ∃ c1, c1 ≤ c2 ∧ runMoves maze mc t1 p d ms = some (q, dq, c1) :=
  runMoves_mono_turnCost ht ms p d q dq c2 h

/-- C9, witness: the amended theorem at a one-move sequence of `G5`,
going from turn cost 23 down to 22. -/
theorem claim9_witness :
    ∃ c1, c1 ≤ 1 ∧ runMoves G5 1 22 (1, 3) Dir.east [Dir.east] =
      some ((2, 3), Dir.east, c1) :=
  claim9_amended G5 1 22 23 (by omega) [Dir.east] (1, 3) Dir.east (2, 3) Dir.east 1 (by rfl)

theorem mem_of_mem_removeAt {α : Type} :
    ∀ (l : List α) (i : Nat) (a : α), a ∈ removeAt l i → a ∈ l := by
  intro l
  induction l with
  | nil => intro i a h; simp [removeAt] at h
  | cons x xs ih =>
    intro i a h
    cases i with
    | zero =>
      simp only [removeAt] at h
      exact List.mem_cons_of_mem x h
    | succ j =>
      simp only [removeAt] at h
      rcases List.mem_cons.mp h with rfl | h'
      · exact List.mem_cons_self a xs
      · exact List.mem_cons_of_mem x (ih j a h')

theorem length_removeAt {α : Type} :
    ∀ (l : List α) (i : Nat), i < l.length → (removeAt l i).length + 1 = l.length := by
  intro l
  induction l with
  | nil => intro i h; simp at h
  | cons x xs ih =>
    intro i h
    cases i with
    | zero => simp [removeAt]
    | succ j =>
      simp only [removeAt, List.length_cons]
      have := ih j (by simpa using h)
      omega

theorem minIdx_lt_length {α : Type} (le : α → α → Bool) :
    ∀ (l : List α) (i : Nat), minIdx le l = some i → i < l.length := by
  intro l
  induction l with
  | nil => intro i h; simp [minIdx] at h
  | cons x xs ih =>
    intro i h
    unfold minIdx at h
    cases hm : minIdx le xs with
    | none =>
      rw [hm] at h
      simp only [Option.some.injEq] at h
      subst h
      simp
    | some j =>
      rw [hm] at h
      dsimp only at h
      cases hg : xs.get? j with
      | none =>
        rw [hg] at h
        simp only [Option.some.injEq] at h
        subst h
        simp
      | some y =>
        rw [hg] at h
        dsimp only at h
        by_cases hle : le x y = true
        · rw [if_pos hle] at h
          simp only [Option.some.injEq] at h
          subst h
          simp
        · rw [if_neg hle] at h
          simp only [Option.some.injEq] at h
          subst h
          have := ih j hm
          simp only [List.length_cons]
          omega

theorem popMin_spec {α : Type} (le : α → α → Bool) (q : List α) (e : α) (rest : List α)
    (h : popMin le q = some (e, rest)) :
    e ∈ q ∧ (∀ a ∈ rest, a ∈ q) ∧ rest.length + 1 = q.length := by
  unfold popMin at h
  cases hm : minIdx le q with
  | none => rw [hm] at h; simp at h
  | some i =>
    rw [hm] at h
    dsimp only at h
    cases hg : q.get? i with
    | none => rw [hg] at h; simp at h
    | some x =>
      rw [hg] at h
      simp only [Option.some.injEq, Prod.mk.injEq] at h
      obtain ⟨rfl, rfl⟩ := h
      refine ⟨List.get?_mem hg, fun a ha => mem_of_mem_removeAt q i a ha, ?_⟩
      exact length_removeAt q i (minIdx_lt_length le q i hm)

theorem runLoose_nil_inv {maze : Maze} {mc tc : Nat} {p q : Pos} {d dq : Dir} {c : Nat}
    (h : runLoose maze mc tc p d [] = some (q, dq, c)) : q = p ∧ dq = d ∧ c = 0 := by
  unfold runLoose at h
  simp only [Option.some.injEq, Prod.mk.injEq] at h
  obtain ⟨rfl, rfl, rfl⟩ := h
  simp

/-- Appending one legal move to a realizing sequence (from a standable
final cell) realizes the stepped state. -/
theorem runLoose_append_one {maze : Maze} {mc tc : Nat} :
    ∀ (ms : List Dir) (p : Pos) (d : Dir) (q : Pos) (dq : Dir) (c : Nat) (m : Dir),
      runLoose maze mc tc p d ms = some (q, dq, c) →
      okPos maze q = true → stepDirOK dq m = true →
      runLoose maze mc tc p d (ms ++ [m]) =
        some (m.advance q, m, c + stepCost mc tc dq m) := by
  intro ms
  induction ms with
  | nil =>
    intro p d q dq c m h hq hm
    obtain ⟨rfl, rfl, rfl⟩ := runLoose_nil_inv h
    show runLoose maze mc tc q dq [m] = _
    unfold runLoose
    rw [if_pos (by rw [hq, hm]; rfl)]
    unfold runLoose
    simp [Nat.add_comm]
  | cons m0 ms ih =>
    intro p d q dq c m h hq hm
    unfold runLoose at h
    by_cases hc : (okPos maze p && stepDirOK d m0) = true
    · rw [if_pos hc] at h
      cases hr : runLoose maze mc tc (m0.advance p) m0 ms with
      | none => rw [hr] at h; simp at h
      | some res =>
        obtain ⟨q', dq', c'⟩ := res
        rw [hr] at h
        simp only [Option.some.injEq, Prod.mk.injEq] at h
        obtain ⟨rfl, rfl, rfl⟩ := h
        have := ih (m0.advance p) m0 q' dq' c' m hr hq hm
        show runLoose maze mc tc p d (m0 :: (ms ++ [m])) = _
        unfold runLoose
        rw [if_pos hc, this]
        simp only [Option.some.injEq, Prod.mk.injEq, true_and]
        omega
    · rw [if_neg hc] at h
      exact absurd h (by simp)

/-- A loose run whose final cell is standable is a strict move sequence. -/
theorem runLoose_to_runMoves {maze : Maze} {mc tc : Nat} :
    ∀ (ms : List Dir) (p : Pos) (d : Dir) (q : Pos) (dq : Dir) (c : Nat),
      runLoose maze mc tc p d ms = some (q, dq, c) →
      okPos maze q = true →
      runMoves maze mc tc p d ms = some (q, dq, c) := by
  intro ms
  induction ms with
  | nil =>
    intro p d q dq c h _
    obtain ⟨rfl, rfl, rfl⟩ := runLoose_nil_inv h
    rfl
  | cons m0 ms ih =>
    intro p d q dq c h hq
    unfold runLoose at h
    by_cases hc : (okPos maze p && stepDirOK d m0) = true
    · rw [if_pos hc] at h
      cases hr : runLoose maze mc tc (m0.advance p) m0 ms with
      | none => rw [hr] at h; simp at h
      | some res =>
        obtain ⟨q', dq', c'⟩ := res
        rw [hr] at h
        simp only [Option.some.injEq, Prod.mk.injEq] at h
        obtain ⟨rfl, rfl, rfl⟩ := h
        have hrec := ih (m0.advance p) m0 q' dq' c' hr hq
        have hok' : okPos maze (m0.advance p) = true := by
          cases ms with
          | nil =>
            obtain ⟨rfl, _, _⟩ := runLoose_nil_inv hr
            exact hq
          | cons m1 ms' =>
            unfold runLoose at hr
            by_cases hc' : (okPos maze (m0.advance p) && stepDirOK m0 m1) = true
            · exact (Bool.and_eq_true_iff.mp hc').1
            · rw [if_neg hc'] at hr
              exact absurd hr (by simp)
        unfold runMoves
        rw [if_pos (Bool.and_eq_true_iff.mp hc).2, if_pos hok', hrec]
    · rw [if_neg hc] at h
      exact absurd h (by simp)

theorem is_within_bounds_iff {maze : Maze} {p : Pos} :
    is_within_bounds maze p = true ↔
      0 ≤ p.1 ∧ p.1 < ((mazeWidth maze : Nat) : Int) ∧ 0 ≤ p.2 ∧
        p.2 < ((maze.length : Nat) : Int) := by
  unfold is_within_bounds mazeWidth
  simp only [Bool.and_eq_true, decide_eq_true_eq]
  tauto

theorem get?_isSome_of_lt {α : Type} {xs : List α} {i : Nat} (h : i < xs.length) :
    ∃ a, xs.get? i = some a := by
  cases hg : xs.get? i with
  | none =>
    rw [List.get?_eq_none] at hg
    omega
  | some a => exact ⟨a, rfl⟩

theorem pyIdx_eq_some_of_bounds {α : Type} {xs : List α} {i : Int}
    (h0 : 0 ≤ i) (hl : i < (xs.length : Int)) :
    ∃ a, pyIdx xs i = some a ∧ xs.get? i.toNat = some a := by
  obtain ⟨a, ha⟩ := @get?_isSome_of_lt _ xs i.toNat (by omega)
  refine ⟨a, ?_, ha⟩
  unfold pyIdx
  rw [if_pos h0, if_pos hl]
  exact ha

/-- In a rectangular maze, every in-bounds position holds a cell, and the
cell is what `getD` reads. -/
theorem cellAtPy_of_inB {maze : Maze} (hrect : rectangular maze) {p : Pos}
    (hb : is_within_bounds maze p = true) :
    ∃ c, cellAtPy maze p = some c ∧
      (maze.getD p.2.toNat []).getD p.1.toNat Cell.cwall = c := by
  obtain ⟨h1, h2, h3, h4⟩ := is_within_bounds_iff.mp hb
  obtain ⟨row, hrow, hrowg⟩ := pyIdx_eq_some_of_bounds h3 h4
  have hrl : row.length = mazeWidth maze := hrect row (List.get?_mem hrowg)
  obtain ⟨c, hc, hcg⟩ := @pyIdx_eq_some_of_bounds _ row p.1 h1 (by rw [hrl]; exact h2)
  refine ⟨c, ?_, ?_⟩
  · unfold cellAtPy
    rw [hrow]
    simpa using hc
  · rw [getD_of_get? [] hrowg, getD_of_get? Cell.cwall hcg]

/-- A non-wall in-bounds cell of a wall-bordered rectangular maze is
interior: all four neighbours are in bounds. -/
theorem neighbour_inB {maze : Maze} (hrect : rectangular maze)
    (hbw : borderWalls maze) {p : Pos} {c : Cell}
    (hb : is_within_bounds maze p = true)
    (hc : cellAtPy maze p = some c) (hnw : c ≠ Cell.cwall) (m : Dir) :
    is_within_bounds maze (m.advance p) = true := by
  obtain ⟨h1, h2, h3, h4⟩ := is_within_bounds_iff.mp hb
  obtain ⟨c', hc', hg⟩ := cellAtPy_of_inB hrect hb
  rw [hc'] at hc
  injection hc with hcc
  subst hcc
  have hylen : p.2.toNat < maze.length := by omega
  have hxlen : p.1.toNat < (maze.getD p.2.toNat []).length := by
    have := hrect (maze.getD p.2.toNat []) (by
      have ⟨row, hrow⟩ := @get?_isSome_of_lt _ maze p.2.toNat hylen
      rw [getD_of_get? [] hrow]
      exact List.get?_mem hrow)
    omega
  have hnotborder :
      ¬(p.2.toNat = 0 ∨ p.2.toNat = maze.length - 1 ∨ p.1.toNat = 0 ∨
        p.1.toNat = (maze.getD p.2.toNat []).length - 1) := by
    intro hcase
    exact hnw (hg ▸ hbw p.2.toNat hylen p.1.toNat hxlen hcase)
  push_neg at hnotborder
  obtain ⟨hy0, hyl, hx0, hxl⟩ := hnotborder
  have hrl : (maze.getD p.2.toNat []).length = mazeWidth maze := by
    have ⟨row, hrow⟩ := @get?_isSome_of_lt _ maze p.2.toNat hylen
    rw [getD_of_get? [] hrow]
    exact hrect row (List.get?_mem hrow)
  rw [is_within_bounds_iff]
  have hW : 0 < mazeWidth maze := by omega
  have hH : 0 < maze.length := by omega
  obtain ⟨px, py⟩ := p
  simp only at h1 h2 h3 h4 hy0 hyl hx0 hxl hrl ⊢
  cases m <;> simp only [Dir.advance, Dir.delta] <;> omega

theorem okPos_of_inB_cell {maze : Maze} {p : Pos} {c : Cell}
    (hb : is_within_bounds maze p = true)
    (hc : cellAtPy maze p = some c) (hnw : c ≠ Cell.cwall) :
    okPos maze p = true := by
  obtain ⟨h1, _, h3, _⟩ := is_within_bounds_iff.mp hb
  unfold okPos cellAtNN
  rw [if_pos ⟨h1, h3⟩, hc]
  simpa using hnw

theorem mem_posRange_of_inB {maze : Maze} {p : Pos}
    (hb : is_within_bounds maze p = true) :
    p ∈ posRange (mazeWidth maze) maze.length := by
  obtain ⟨h1, h2, h3, h4⟩ := is_within_bounds_iff.mp hb
  unfold posRange
  rw [List.mem_flatMap]
  refine ⟨p.2.toNat, by rw [List.mem_range]; omega, ?_⟩
  rw [List.mem_map]
  refine ⟨p.1.toNat, by rw [List.mem_range]; omega, ?_⟩
  obtain ⟨px, py⟩ := p
  simp only at h1 h3 ⊢
  rw [Int.toNat_of_nonneg h1, Int.toNat_of_nonneg h3]

theorem length_filter_le_of_imp {α : Type} (p q : α → Bool)
    (himp : ∀ a, p a = true → q a = true) :
    ∀ l : List α, (l.filter p).length ≤ (l.filter q).length := by
  intro l
  induction l with
  | nil => simp
  | cons x xs ih =>
    by_cases hp : p x = true
    · rw [List.filter_cons_of_pos hp, List.filter_cons_of_pos (himp x hp)]
      simpa using ih
    · rw [List.filter_cons_of_neg (by simpa using hp)]
      by_cases hq : q x = true
      · rw [List.filter_cons_of_pos hq]
        simp only [List.length_cons]
        omega
      · rw [List.filter_cons_of_neg (by simpa using hq)]
        exact ih

theorem length_filter_lt_of_mem {α : Type} (p q : α → Bool) (a : α)
    (himp : ∀ b, p b = true → q b = true)
    (hpa : p a = false) (hqa : q a = true) :
    ∀ l : List α, a ∈ l → (l.filter p).length < (l.filter q).length := by
  intro l
  induction l with
  | nil => intro h; simp at h
  | cons x xs ih =>
    intro hmem
    by_cases hpx : p x = true
    · have hqx := himp x hpx
      rw [List.filter_cons_of_pos hpx, List.filter_cons_of_pos hqx]
      simp only [List.length_cons]
      have hax : a ≠ x := fun he => by rw [he] at hpa; rw [hpa] at hpx; exact absurd hpx (by simp)
      have hat : a ∈ xs := by
        rcases List.mem_cons.mp hmem with rfl | h'
        · exact absurd rfl hax
        · exact h'
      have := ih hat
      omega
    · rw [List.filter_cons_of_neg (by simpa using hpx)]
      by_cases hqx : q x = true
      · rw [List.filter_cons_of_pos hqx]
        simp only [List.length_cons]
        have := length_filter_le_of_imp p q himp xs
        omega
      · rw [List.filter_cons_of_neg (by simpa using hqx)]
        have hax : a ≠ x := fun he => by rw [he] at hqa; rw [hqa] at hqx; exact absurd hqx (by simp)
        have hat : a ∈ xs := by
          rcases List.mem_cons.mp hmem with rfl | h'
          · exact absurd rfl hax
          · exact h'
        exact ih hat

theorem contains_cons_eq {α : Type} [BEq α] (x a : α) (v : List α) :
    (x :: v).contains a = (a == x || v.contains a) := by
  exact List.contains_cons

theorem contains_cons_self {α : Type} [BEq α] [LawfulBEq α] (a : α) (v : List α) :
    (a :: v).contains a = true := by
  rw [contains_cons_eq]
  simp

theorem contains_of_contains_cons {α : Type} [BEq α] {x a : α} {v : List α}
    (h : (x :: v).contains a = false) : v.contains a = false := by
  rw [contains_cons_eq] at h
  exact (Bool.or_eq_false_iff.mp h).2

theorem stepDirOK_self (d : Dir) : stepDirOK d d = true := by
  cases d <;> rfl

theorem stepDirOK_cw (d : Dir) : stepDirOK d d.turn_clockwise = true := by
  cases d <;> rfl

theorem stepDirOK_ccw (d : Dir) : stepDirOK d d.turn_counter_clockwise = true := by
  cases d <;> rfl

theorem turn_cw_ne (d : Dir) : d.turn_clockwise ≠ d := by
  cases d <;> simp [Dir.turn_clockwise]

theorem turn_ccw_ne (d : Dir) : d.turn_counter_clockwise ≠ d := by
  cases d <;> simp [Dir.turn_counter_clockwise]

/-- On a wall-bordered rectangular maze whose end position is standable
but unreachable from the start state, the `min_cost_to_end` loop, started
anywhere satisfying the frontier invariant and given fuel above the
measure, exhausts the frontier and reports no path. -/
theorem minLoop_noPath_aux (maze : Maze) (mc tc : Nat)
    (hrect : rectangular maze) (hbw : borderWalls maze)
    (p0 : Pos) (d0 : Dir) (endPos : Pos)
    (hp0ne : p0 ≠ endPos)
    (hokend : okPos maze endPos = true)
    (hun : ∀ ms d c, runMoves maze mc tc p0 d0 ms ≠ some (endPos, d, c)) :
    ∀ fuel cfg, MQInv maze mc tc p0 d0 cfg → minMeasure maze cfg < fuel →
      minLoop maze mc tc endPos fuel cfg =
        .error (.valueError "No path to the end of the maze found.") := by
  intro fuel
  induction fuel with
  | zero => intro cfg _ hm; omega
  | succ n ih =>
    intro cfg hinv hm
    unfold minLoop
    cases hpop : popMin entryLE cfg.queue with
    | none =>
      unfold minStep
      rw [hpop]
    | some er =>
      obtain ⟨e, rest⟩ := er
      obtain ⟨hmem, hrestmem, hlen⟩ := popMin_spec entryLE cfg.queue e rest hpop
      obtain ⟨hein, mse, hmse⟩ := hinv e hmem
      have hrestinv : ∀ a ∈ rest, is_within_bounds maze a.pos = true ∧
          ∃ ms, runLoose maze mc tc p0 d0 ms = some (a.pos, a.dir, a.cost) :=
        fun a ha => hinv a (hrestmem a ha)
      by_cases hend : e.pos = endPos
      · exfalso
        cases mse with
        | nil =>
          obtain ⟨hq, _, _⟩ := runLoose_nil_inv hmse
          exact hp0ne (by rw [← hq, hend])
        | cons m ms' =>
          rw [hend] at hmse
          have hms := runLoose_to_runMoves (m :: ms') p0 d0 endPos e.dir e.cost hmse hokend
          exact hun (m :: ms') e.dir e.cost hms
      · by_cases hv : cfg.visited.contains e.pos = true
        · have hstep : minStep maze mc tc endPos cfg = .more ⟨rest, cfg.visited, cfg.cnt⟩ := by
            unfold minStep
            rw [hpop]
            simp only [if_neg hend, hv, if_true]
          rw [hstep]
          refine ih ⟨rest, cfg.visited, cfg.cnt⟩ hrestinv ?_
          unfold minMeasure at hm ⊢
          simp only at hm ⊢
          omega
        · obtain ⟨c, hcell, hcellg⟩ := cellAtPy_of_inB hrect hein
          have hfilterle := length_filter_le_of_imp
            (fun p => !((e.pos :: cfg.visited).contains p))
            (fun p => !(cfg.visited.contains p))
            (fun a ha => by
              simp only [Bool.not_eq_true'] at ha ⊢
              exact contains_of_contains_cons ha)
            (posRange (mazeWidth maze) maze.length)
          by_cases hwall : c = Cell.cwall
          · have hstep : minStep maze mc tc endPos cfg =
                .more ⟨rest, e.pos :: cfg.visited, cfg.cnt⟩ := by
              unfold minStep
              rw [hpop]
              simp only [if_neg hend, hv, if_false, Bool.false_eq_true]
              rw [hcell]
              dsimp only
              rw [if_pos hwall]
            rw [hstep]
            refine ih ⟨rest, e.pos :: cfg.visited, cfg.cnt⟩ hrestinv ?_
            unfold minMeasure at hm ⊢
            simp only at hm ⊢
            omega
          · have hfilterlt := length_filter_lt_of_mem
              (fun p => !((e.pos :: cfg.visited).contains p))
              (fun p => !(cfg.visited.contains p))
              e.pos
              (fun a ha => by
                simp only [Bool.not_eq_true'] at ha ⊢
                exact contains_of_contains_cons ha)
              (by simp [contains_cons_self])
              (by simp only [Bool.not_eq_true']; simpa using hv)
              (posRange (mazeWidth maze) maze.length)
              (mem_posRange_of_inB hein)
            have hok : okPos maze e.pos = true := okPos_of_inB_cell hein hcell hwall
            have hstep : minStep maze mc tc endPos cfg =
                .more ⟨rest ++
                  [⟨tc + (e.cost + mc), cfg.cnt,
                    e.dir.turn_counter_clockwise.advance e.pos, e.dir.turn_counter_clockwise⟩,
                   ⟨e.cost + mc, cfg.cnt + 1, e.dir.advance e.pos, e.dir⟩,
                   ⟨tc + (e.cost + mc), cfg.cnt + 2,
                    e.dir.turn_clockwise.advance e.pos, e.dir.turn_clockwise⟩],
                  e.pos :: cfg.visited, cfg.cnt + 3⟩ := by
              unfold minStep
              rw [hpop]
              simp only [if_neg hend, hv, if_false, Bool.false_eq_true]
              rw [hcell]
              dsimp only
              rw [if_neg hwall]
            rw [hstep]
            refine ih _ ?_ ?_
            · intro a ha
              rcases List.mem_append.mp ha with ha' | ha'
              · exact hrestinv a ha'
              · have hsucc : ∀ m : Dir, stepDirOK e.dir m = true →
                    is_within_bounds maze (m.advance e.pos) = true ∧
                    ∃ ms, runLoose maze mc tc p0 d0 ms =
                      some (m.advance e.pos, m, e.cost + stepCost mc tc e.dir m) := by
                  intro m hm'
                  refine ⟨neighbour_inB hrect hbw hein hcell hwall m, mse ++ [m], ?_⟩
                  exact runLoose_append_one mse p0 d0 e.pos e.dir e.cost m hmse hok hm'
                rcases List.mem_cons.mp ha' with rfl | ha''
                · obtain ⟨hb', ms', hms'⟩ := hsucc e.dir.turn_counter_clockwise (stepDirOK_ccw e.dir)
                  refine ⟨hb', ms', ?_⟩
                  rw [hms']
                  have : e.cost + stepCost mc tc e.dir e.dir.turn_counter_clockwise =
                      tc + (e.cost + mc) := by
                    unfold stepCost
                    rw [if_neg (turn_ccw_ne e.dir)]
                    omega
                  rw [this]
                · rcases List.mem_cons.mp ha'' with rfl | ha3
                  · obtain ⟨hb', ms', hms'⟩ := hsucc e.dir (stepDirOK_self e.dir)
                    refine ⟨hb', ms', ?_⟩
                    rw [hms']
                    have : e.cost + stepCost mc tc e.dir e.dir = e.cost + mc := by
                      unfold stepCost
                      rw [if_pos rfl]
                    rw [this]
                  · rcases List.mem_cons.mp ha3 with rfl | ha4
                    · obtain ⟨hb', ms', hms'⟩ := hsucc e.dir.turn_clockwise (stepDirOK_cw e.dir)
                      refine ⟨hb', ms', ?_⟩
                      rw [hms']
                      have : e.cost + stepCost mc tc e.dir e.dir.turn_clockwise =
                          tc + (e.cost + mc) := by
                        unfold stepCost
                        rw [if_neg (turn_cw_ne e.dir)]
                        omega
                      rw [this]
                    · exact absurd ha4 (by simp)
            · unfold minMeasure at hm ⊢
              simp only [List.length_append, List.length_cons, List.length_nil] at hm ⊢
              omega

theorem recGet_recSet_ne {r : List (Pos × Nat)} {p q : Pos} {c : Nat} (h : p ≠ q) :
    recGet (recSet r p c) q = recGet r q := by
  simp [recGet, recSet, h]

/-- On a wall-bordered rectangular maze whose standable end position no
move sequence reaches within the 999999999 sentinel, a normal return of
the `count_best_path_tiles` loop reports zero tiles: nothing is ever
appended to `best_paths`. -/
theorem cbLoop_ok_zero (maze : Maze) (mc tc : Nat)
    (hrect : rectangular maze) (hbw : borderWalls maze)
    (p0 : Pos) (d0 : Dir) (endPos : Pos)
    (hp0ne : p0 ≠ endPos)
    (hokend : okPos maze endPos = true)
    (hblock : ∀ ms d c, runMoves maze mc tc p0 d0 ms = some (endPos, d, c) →
      999999999 < c) :
    ∀ fuel cfg n dm, CInv maze mc tc p0 d0 endPos cfg →
      cbLoop maze mc tc endPos fuel cfg = .ok (n, dm) → n = 0 := by
  intro fuel
  induction fuel with
  | zero =>
    intro cfg n dm _ h
    exact absurd h (by simp [cbLoop])
  | succ k ih =>
    intro cfg n dm hinv h
    obtain ⟨hq, hrec, hbest⟩ := hinv
    unfold cbLoop at h
    cases hpop : popMin nodeLE cfg.queue with
    | none =>
      have hstep : cbStep maze mc tc endPos cfg = .done (.ok (cbFinish maze cfg.best)) := by
        unfold cbStep
        rw [hpop]
      rw [hstep] at h
      cases hb : cfg.best with
      | nil =>
        rw [hb] at h
        simp only [cbFinish, collectPositions, List.length_nil, Except.ok.injEq,
          Prod.mk.injEq] at h
        omega
      | cons b bs =>
        exfalso
        obtain ⟨hbp, hbc, ms, hms⟩ := hbest b (by rw [hb]; exact List.mem_cons_self b bs)
        cases ms with
        | nil =>
          obtain ⟨hq', _, _⟩ := runLoose_nil_inv hms
          exact hp0ne hq'.symm
        | cons m ms' =>
          have hstrict := runLoose_to_runMoves (m :: ms') p0 d0 endPos b.dir b.cost hms hokend
          exact absurd hbc (by have := hblock (m :: ms') b.dir b.cost hstrict; omega)
    | some nr =>
      obtain ⟨node, rest⟩ := nr
      obtain ⟨hmem, hrestmem, _⟩ := popMin_spec nodeLE cfg.queue node rest hpop
      obtain ⟨hnin, msn, hmsn⟩ := hq node hmem
      have hrestq : ∀ a ∈ rest, is_within_bounds maze a.pos = true ∧
          ∃ ms, runLoose maze mc tc p0 d0 ms = some (a.pos, a.dir, a.cost) :=
        fun a ha => hq a (hrestmem a ha)
      obtain ⟨c, hcell, _⟩ := cellAtPy_of_inB hrect hnin
      obtain ⟨v, hv, hvle⟩ := hrec
      by_cases hwall : c = Cell.cwall
      · have hstep : cbStep maze mc tc endPos cfg =
            .more ⟨rest, cfg.record, cfg.best, cfg.cnt⟩ := by
          unfold cbStep
          rw [hpop]
          dsimp only
          rw [hcell]
          dsimp only
          rw [if_pos hwall]
        rw [hstep] at h
        dsimp only at h
        exact ih ⟨rest, cfg.record, cfg.best, cfg.cnt⟩ n dm
          ⟨hrestq, ⟨v, hv, hvle⟩, hbest⟩ h
      · by_cases hlt : v < node.cost
        · have hstep : cbStep maze mc tc endPos cfg =
              .more ⟨rest, cfg.record, cfg.best, cfg.cnt⟩ := by
            unfold cbStep
            rw [hpop]
            dsimp only
            rw [hcell]
            dsimp only
            rw [if_neg hwall, hv]
            dsimp only
            rw [if_pos hlt]
          rw [hstep] at h
          dsimp only at h
          exact ih ⟨rest, cfg.record, cfg.best, cfg.cnt⟩ n dm
            ⟨hrestq, ⟨v, hv, hvle⟩, hbest⟩ h
        · have hok : okPos maze node.pos = true := okPos_of_inB_cell hnin hcell hwall
          by_cases hend : node.pos = endPos
          · exfalso
            rw [hend] at hmsn
            cases msn with
            | nil =>
              obtain ⟨hq', _, _⟩ := runLoose_nil_inv hmsn
              exact hp0ne hq'.symm
            | cons m ms' =>
              have hstrict := runLoose_to_runMoves (m :: ms') p0 d0 endPos node.dir node.cost
                hmsn hokend
              have := hblock (m :: ms') node.dir node.cost hstrict
              omega
          · set prune : Bool := (match recGet cfg.record node.pos with
              | some pc => decide (pc < node.cost)
              | none => false) with hprune_def
            by_cases hprune : prune = true
            · have hstep : cbStep maze mc tc endPos cfg =
                  .more ⟨rest, cfg.record, cfg.best, cfg.cnt⟩ := by
                unfold cbStep
                rw [hpop]
                dsimp only
                rw [hcell]
                dsimp only
                rw [if_neg hwall, hv]
                dsimp only
                rw [if_neg hlt]
                rw [← hprune_def, if_pos hprune]
              rw [hstep] at h
              dsimp only at h
              exact ih ⟨rest, cfg.record, cfg.best, cfg.cnt⟩ n dm
                ⟨hrestq, ⟨v, hv, hvle⟩, hbest⟩ h
            · have hstep : cbStep maze mc tc endPos cfg =
                  .more ⟨rest ++
                    [.mk (tc + (node.cost + mc)) cfg.cnt
                      (node.dir.turn_counter_clockwise.advance node.pos)
                      node.dir.turn_counter_clockwise (some node),
                     .mk (node.cost + mc) (cfg.cnt + 1) (node.dir.advance node.pos)
                      node.dir (some node),
                     .mk (tc + (node.cost + mc)) (cfg.cnt + 2)
                      (node.dir.turn_clockwise.advance node.pos)
                      node.dir.turn_clockwise (some node)],
                    recSet cfg.record node.pos node.cost, cfg.best, cfg.cnt + 3⟩ := by
                unfold cbStep
                rw [hpop]
                dsimp only
                rw [hcell]
                dsimp only
                rw [if_neg hwall, hv]
                dsimp only
                rw [if_neg hlt]
                rw [← hprune_def, if_neg hprune]
                rw [if_neg hend]
              rw [hstep] at h
              dsimp only at h
              refine ih ⟨rest ++
                    [.mk (tc + (node.cost + mc)) cfg.cnt
                      (node.dir.turn_counter_clockwise.advance node.pos)
                      node.dir.turn_counter_clockwise (some node),
                     .mk (node.cost + mc) (cfg.cnt + 1) (node.dir.advance node.pos)
                      node.dir (some node),
                     .mk (tc + (node.cost + mc)) (cfg.cnt + 2)
                      (node.dir.turn_clockwise.advance node.pos)
                      node.dir.turn_clockwise (some node)],
                    recSet cfg.record node.pos node.cost, cfg.best, cfg.cnt + 3⟩ n dm
                ⟨?_, ⟨v, ?_, hvle⟩, hbest⟩ h
              · intro a ha
                rcases List.mem_append.mp ha with ha' | ha'
                · exact hrestq a ha'
                · have hsucc : ∀ m : Dir, stepDirOK node.dir m = true →
                      is_within_bounds maze (m.advance node.pos) = true ∧
                      ∃ ms, runLoose maze mc tc p0 d0 ms =
                        some (m.advance node.pos, m, node.cost + stepCost mc tc node.dir m) := by
                    intro m hm'
                    refine ⟨neighbour_inB hrect hbw hnin hcell hwall m, msn ++ [m], ?_⟩
                    exact runLoose_append_one msn p0 d0 node.pos node.dir node.cost m hmsn hok hm'
                  rcases List.mem_cons.mp ha' with rfl | ha2
                  · obtain ⟨hb', ms', hms'⟩ :=
                      hsucc node.dir.turn_counter_clockwise (stepDirOK_ccw node.dir)
                    refine ⟨hb', ms', ?_⟩
                    rw [hms']
                    have : node.cost + stepCost mc tc node.dir node.dir.turn_counter_clockwise =
                        tc + (node.cost + mc) := by
                      unfold stepCost
                      rw [if_neg (turn_ccw_ne node.dir)]
                      omega
                    rw [this]
                    rfl
                  · rcases List.mem_cons.mp ha2 with rfl | ha3
                    · obtain ⟨hb', ms', hms'⟩ := hsucc node.dir (stepDirOK_self node.dir)
                      refine ⟨hb', ms', ?_⟩
                      rw [hms']
                      have : node.cost + stepCost mc tc node.dir node.dir = node.cost + mc := by
                        unfold stepCost
                        rw [if_pos rfl]
                      rw [this]
                      rfl
                    · rcases List.mem_cons.mp ha3 with rfl | ha4
                      · obtain ⟨hb', ms', hms'⟩ :=
                          hsucc node.dir.turn_clockwise (stepDirOK_cw node.dir)
                        refine ⟨hb', ms', ?_⟩
                        rw [hms']
                        have : node.cost + stepCost mc tc node.dir node.dir.turn_clockwise =
                            tc + (node.cost + mc) := by
                          unfold stepCost
                          rw [if_neg (turn_cw_ne node.dir)]
                          omega
                        rw [this]
                        rfl
                      · exact absurd ha4 (by simp)
              · rw [recGet_recSet_ne hend]
                exact hv

/-- C4, amended. On a wall-bordered rectangular grid whose end position
holds a standable cell that no move sequence from the start state
reaches, `min_cost_to_end` raises `NoPathError` (the `ValueError` of the
source) after exhausting the search, for every sufficient fuel; but
`count_best_path_tiles` does not fail under the same condition: whenever
it returns it returns the normal count 0, as the concrete run on the
unreachable maze `G4c` shows. -/
theorem claim4_amended (maze : Maze) (d0 : Dir) (mc tc : Nat)
    (hrect : rectangular maze) (hbw : borderWalls maze)
    (hW : 2 ≤ mazeWidth maze) (hH : 2 ≤ maze.length)
    (hne : find_start_position maze ≠ ((mazeWidth maze : Int) - 2, 1))
    (hokend : okPos maze ((mazeWidth maze : Int) - 2, 1) = true)
    (hun : ∀ ms d c, runMoves maze mc tc (find_start_position maze) d0 ms ≠
      some ((((mazeWidth maze : Int) - 2, 1) : Pos), d, c)) :
    (∀ fuel, minMeasure maze (initMCfg maze d0) < fuel →
      min_cost_to_end maze d0 mc tc fuel =
        .error (.valueError "No path to the end of the maze found.")) ∧
    (∀ fuel n dm, count_best_path_tiles maze d0 mc tc fuel = .ok (n, dm) → n = 0) ∧
    count_best_path_tiles G4c Dir.east 1 1000 200 = .ok (0, unmarked G4c) := by
  have hinit : is_within_bounds maze (find_start_position maze) = true := by
    rw [is_within_bounds_iff]
    unfold find_start_position
    dsimp only
    omega
  obtain ⟨r0, rest0, hmz⟩ : ∃ r0 rest0, maze = r0 :: rest0 := by
    cases maze with
    | nil => simp at hH
    | cons a b => exact ⟨a, b, rfl⟩
  have hend_eq : find_end_position maze = .ok ((mazeWidth maze : Int) - 2, 1) := by
    rw [hmz]
    rfl
  refine ⟨?_, ?_, by rfl⟩
  · intro fuel hf
    unfold min_cost_to_end
    rw [hend_eq]
    refine minLoop_noPath_aux maze mc tc hrect hbw (find_start_position maze) d0 _
      hne hokend hun fuel (initMCfg maze d0) ?_ hf
    intro e he
    rcases List.mem_cons.mp he with rfl | h'
    · exact ⟨hinit, [], rfl⟩
    · exact absurd h' (by simp)
  · intro fuel n dm h
    unfold count_best_path_tiles at h
    rw [hend_eq] at h
    refine cbLoop_ok_zero maze mc tc hrect hbw (find_start_position maze) d0 _ hne hokend
      (fun ms d c hms => absurd hms (hun ms d c)) fuel _ n dm
      ⟨?_, ⟨999999999, ?_, le_rfl⟩, ?_⟩ h
    · intro e he
      rcases List.mem_cons.mp he with rfl | h'
      · exact ⟨hinit, [], rfl⟩
      · exact absurd h' (by simp)
    · simp [initCCfg, recGet]
    · intro b hb
      exact absurd hb (by simp [initCCfg])

/-- C4, counterexample. On `G4c` the end position is unreachable from the
start state (the reachable cells are the movement-closed set `R4`), and
while `min_cost_to_end` does raise `NoPathError`, `count_best_path_tiles`
returns the normal result 0 — refuting the claim that neither operation
returns normally on an unreachable end. -/
theorem claim4_counterexample :
    (∀ ms d c, runMoves G4c 1 1000 (find_start_position G4c) Dir.east ms ≠
      some (((3 : Int), (1 : Int)), d, c)) ∧
    min_cost_to_end G4c Dir.east 1 1000 100 =
      .error (.valueError "No path to the end of the maze found.") ∧
    count_best_path_tiles G4c Dir.east 1 1000 100 = .ok (0, unmarked G4c) := by
  refine ⟨?_, by rfl, by rfl⟩
  intro ms d c hms
  have hmem := @end_mem_of_posClosed G4c R4 (by decide) 1 1000
    ms (find_start_position G4c) Dir.east (3, 1) d c hms (by rfl) (by rfl)
  exact absurd hmem (by decide)

/-- C4, witness: the amended theorem applied to `G4c`, whose
unreachability is certified by the movement-closed set `R4`. -/
theorem claim4_witness :
    min_cost_to_end G4c Dir.east 1 1000 100 =
      .error (.valueError "No path to the end of the maze found.") :=
  (claim4_amended G4c Dir.east 1 1000 (by decide) (by decide) (by decide) (by decide)
    (by decide) (by rfl)
    (fun ms d c hms => by
      have hmem := @end_mem_of_posClosed G4c R4 (by decide) 1 1000
        ms (find_start_position G4c) Dir.east ((mazeWidth G4c : Int) - 2, 1) d c hms
        (by rfl) (by rfl)
      exact absurd hmem (by decide))).1 100 (by decide)

/-- C10, amended. The `min_cost_to_position` record is seeded with the
sentinel 999999999 at the end position; every popped non-wall node whose
cost exceeds the end position's currently recorded cost is discarded with
no other effect; and on a wall-bordered rectangular grid in which every
move sequence reaching the standable end position costs more than
999999999, any normal return of `count_best_path_tiles` reports 0 tiles
(out-of-bounds pops can instead crash the search with `IndexError`
before it returns — see the counterexample). -/
theorem claim10_amended (maze : Maze) (d0 : Dir) (mc tc : Nat)
    (hrect : rectangular maze) (hbw : borderWalls maze)
    (hW : 2 ≤ mazeWidth maze) (hH : 2 ≤ maze.length)
    (hne : find_start_position maze ≠ ((mazeWidth maze : Int) - 2, 1))
    (hokend : okPos maze ((mazeWidth maze : Int) - 2, 1) = true)
    (hbig : ∀ ms d c, runMoves maze mc tc (find_start_position maze) d0 ms =
      some ((((mazeWidth maze : Int) - 2, 1) : Pos), d, c) → 999999999 < c) :
    (∀ (mz : Maze) (dd : Dir) (ep : Pos),
      (initCCfg mz dd ep).record = [(ep, 999999999)]) ∧
    (∀ (mz : Maze) (mc' tc' : Nat) (ep : Pos) (cfg : CCfg) (node : CNode)
       (rest : List CNode) (c : Cell) (endRec : Nat),
       popMin nodeLE cfg.queue = some (node, rest) →
       cellAtPy mz node.pos = some c → c ≠ Cell.cwall →
       recGet cfg.record ep = some endRec → endRec < node.cost →
       cbStep mz mc' tc' ep cfg = .more ⟨rest, cfg.record, cfg.best, cfg.cnt⟩) ∧
    (∀ fuel n dm, count_best_path_tiles maze d0 mc tc fuel = .ok (n, dm) → n = 0) := by
  have hinit : is_within_bounds maze (find_start_position maze) = true := by
    rw [is_within_bounds_iff]
    unfold find_start_position
    dsimp only
    omega
  obtain ⟨r0, rest0, hmz⟩ : ∃ r0 rest0, maze = r0 :: rest0 := by
    cases maze with
    | nil => simp at hH
    | cons a b => exact ⟨a, b, rfl⟩
  have hend_eq : find_end_position maze = .ok ((mazeWidth maze : Int) - 2, 1) := by
    rw [hmz]
    rfl
  refine ⟨fun mz dd ep => rfl, ?_, ?_⟩
  · intro mz mc' tc' ep cfg node rest c endRec hpop hcell hnw hrec hlt
    unfold cbStep
    rw [hpop]
    dsimp only
    rw [hcell]
    dsimp only
    rw [if_neg hnw, hrec]
    dsimp only
    rw [if_pos hlt]
  · intro fuel n dm h
    unfold count_best_path_tiles at h
    rw [hend_eq] at h
    refine cbLoop_ok_zero maze mc tc hrect hbw (find_start_position maze) d0 _ hne hokend
      hbig fuel _ n dm ⟨?_, ⟨999999999, ?_, le_rfl⟩, ?_⟩ h
    · intro e he
      rcases List.mem_cons.mp he with rfl | h'
      · exact ⟨hinit, [], rfl⟩
      · exact absurd h' (by simp)
    · simp [initCCfg, recGet]
    · intro b hb
      exact absurd hb (by simp [initCCfg])

/-- C10, counterexample. On `G10x` with turn cost 2000000000, every move
sequence from the start state to the end position costs more than
999999999 (any such sequence must turn), yet `count_best_path_tiles` does
not return 0: it crashes with `IndexError`, because the open border cell
`(4, 3)` makes the search walk past the grid's edge, and the out-of-bounds
pop indexes the maze before any cost check can prune it. -/
theorem claim10_counterexample :
    (∀ ms d c, runMoves G10x 1 2000000000 (find_start_position G10x) Dir.east ms =
      some (((3 : Int), (1 : Int)), d, c) → 999999999 < c) ∧
    count_best_path_tiles G10x Dir.east 1 2000000000 2000 = .error .indexError := by
  refine ⟨?_, by rfl⟩
  intro ms d c hms
  by_contra hle
  push_neg at hle
  have hstraight := moves_straight_of_cheap ms (find_start_position G10x) Dir.east
    (3, 1) d c hms (by omega)
  have hy := y_const_of_straight_east ms (find_start_position G10x) (3, 1) d c hms hstraight
  simp [find_start_position, G10x] at hy

/-- C10, witness: the amended theorem applied to the wall-bordered maze
`G5` with turn cost 2000000000, where the run returns normally with 0
tiles. -/
theorem claim10_witness :
    (0 : Nat) = 0 ∧
    count_best_path_tiles G5 Dir.east 1 2000000000 2000 = .ok (0, unmarked G5) :=
  ⟨(claim10_amended G5 Dir.east 1 2000000000 (by decide) (by decide) (by decide) (by decide)
      (by decide) (by rfl)
      (fun ms d c hms => by
        by_contra hle
        push_neg at hle
        have hstraight := moves_straight_of_cheap ms (find_start_position G5) Dir.east
          ((mazeWidth G5 : Int) - 2, 1) d c hms (by omega)
        have hy := y_const_of_straight_east ms (find_start_position G5)
          ((mazeWidth G5 : Int) - 2, 1) d c hms hstraight
        simp [find_start_position, G5, mazeWidth] at hy)).2.2
      2000 0 (unmarked G5) (by rfl),
    by rfl⟩

end Day16
